import Mathlib

/-!
Verification of `src/features/modals/NodeModal/index.tsx`.

The development shallowly embeds the module's logic:

* `JVal` is the universe of parsed JSON values (JS objects are association
  lists with assignment semantics, so keys stay unique in insertion order;
  numbers are exact `mantissa × 10^exp` pairs, which loses no structure the
  component inspects).
* `jsonParse` models `JSON.parse` (strict RFC 8259 grammar: no leading
  zeros, a `.` or `e` requires digits, raw control characters are rejected
  in strings).  It also stands in for the third-party `jsonc-parser`
  `parse`, which the component only uses on well-formed documents.
  Deviation kept deliberately small and irrelevant to the claims: `\uXXXX`
  escapes denoting surrogate halves are rejected (Lean `Char` cannot carry
  lone surrogates), and `String.prototype.trim` is modelled over the ASCII
  whitespace set.
* `serializeJ` renders a value back to text (minimal form; the component's
  formatting options only affect whitespace).
* `handleSave`, `handleCancel`, `handleEdit`, the modal effect and the
  deferred re-selection are pure transformers over `AppState`, with the
  `try`/`catch` of the source embedded as `Except`.
-/

/-- A parsed JSON value.  Numbers are exact `mant × 10 ^ exp`; objects are
association lists in insertion order with unique keys (JS object semantics). -/
inductive JVal where
  | null
  | bool (b : Bool)
  | num (mant exp10 : Int)
  | str (s : String)
  | arr (items : List JVal)
  | obj (fields : List (String × JVal))

/-! ### Generic JS-object association lists -/

/-- First-match lookup in an association list (JS property read). -/
def assocGet {β : Type} (l : List (String × β)) (k : String) : Option β :=
  match l with
  | [] => none
  | (k1, v1) :: t => if k1 = k then some v1 else assocGet t k

/-- JS property assignment `o[k] = v`: update the entry in place if the key
exists, otherwise append it (insertion order preserved). -/
def assocSet {β : Type} (l : List (String × β)) (k : String) (v : β) :
    List (String × β) :=
  match l with
  | [] => [(k, v)]
  | (k1, v1) :: t => if k1 = k then (k1, v) :: t else (k1, v1) :: assocSet t k v

/-- Assign every pair of `upds` onto `base`, left to right.  This is both how
`JSON.parse` builds an object from its members and how the spread
`\x7b ...o, ...e \x7d` overlays `e` onto a copy of `o`. -/
def assignAll {β : Type} (base : List (String × β)) (upds : List (String × β)) :
    List (String × β) :=
  upds.foldl (fun acc kv => assocSet acc kv.1 kv.2) base

/-- Keys are pairwise distinct (JS objects always satisfy this). -/
def keysFresh : List String → Bool
  | [] => true
  | k :: ks => !(ks.contains k) && keysFresh ks

/-! ### Well-formed values: every object level has unique keys -/

mutual
def wfJ : JVal → Bool
  | .null => true
  | .bool _ => true
  | .num _ _ => true
  | .str _ => true
  | .arr xs => wfItems xs
  | .obj fs => keysFresh (fs.map Prod.fst) && wfFields fs
def wfItems : List JVal → Bool
  | [] => true
  | x :: xs => wfJ x && wfItems xs
def wfFields : List (String × JVal) → Bool
  | [] => true
  | (_, v) :: fs => wfJ v && wfFields fs
end

/-! ### Character-level scanning utilities -/

/-- The whitespace set of the JSON grammar (also what matters of JS
whitespace here). -/
def jsWs (c : Char) : Bool := c == '\t' || c == ' ' || c == '\n' || c == '\r'

def dropWs : List Char → List Char
  | [] => []
  | c :: cs => if jsWs c then dropWs cs else c :: cs

def isDig (c : Char) : Bool := '0' ≤ c && c ≤ '9'

/-- Split a leading run of decimal digits from the input. -/
def spanDigits : List Char → List Char × List Char
  | [] => ([], [])
  | c :: cs =>
      if isDig c then
        let p := spanDigits cs
        (c :: p.1, p.2)
      else ([], c :: cs)

/-- Numeric value of a digit run. -/
def digitsVal (ds : List Char) : Nat :=
  ds.foldl (fun a c => a * 10 + (c.toNat - 48)) 0

/-- A JSON integer part: `0`, or a digit run not starting with `0`. -/
def intPartOk : List Char → Bool
  | [] => false
  | [_] => true
  | c :: _ :: _ => c != '0'

/-- Fraction part of a JSON number: after a `.` at least one digit is
required; with no `.` the fraction is empty. -/
def scanFrac : List Char → Option (List Char × List Char)
  | [] => some ([], [])
  | c :: r =>
      if c = '.' then
        let p := spanDigits r
        if p.1.isEmpty then none else some p
      else some ([], c :: r)

/-- Digits of an exponent after the `e`/`E` marker (optional sign, then at
least one digit). -/
def scanExpTail (r : List Char) : Option (Int × List Char) :=
  let sp : Int × List Char :=
    match r with
    | [] => (1, [])
    | c :: r1 => if c = '+' then (1, r1) else if c = '-' then (-1, r1) else (1, c :: r1)
  let p := spanDigits sp.2
  if p.1.isEmpty then none else some (sp.1 * (digitsVal p.1 : Int), p.2)

/-- Exponent part of a JSON number (empty when no `e`/`E` follows). -/
def scanExp : List Char → Option (Int × List Char)
  | [] => some (0, [])
  | c :: r =>
      if c = 'e' ∨ c = 'E' then scanExpTail r else some (0, c :: r)

/-- Scan a JSON number per the RFC 8259 grammar (what `JSON.parse` accepts:
no leading zeros, a `.` or exponent marker demands digits).  Returns the
exact value as `mantissa × 10 ^ exp`. -/
def scanNumber (cs : List Char) : Option ((Int × Int) × List Char) :=
  let sn : Bool × List Char :=
    match cs with
    | [] => (false, [])
    | c :: r => if c = '-' then (true, r) else (false, c :: r)
  let ip := spanDigits sn.2
  if intPartOk ip.1 then
    match scanFrac ip.2 with
    | none => none
    | some (fp, cs3) =>
      match scanExp cs3 with
      | none => none
      | some (ex, cs4) =>
        let mag : Nat := digitsVal (ip.1 ++ fp)
        let mant : Int := if sn.1 then -(mag : Int) else (mag : Int)
        some ((mant, ex - (fp.length : Int)), cs4)
  else none

/-- Decode one short escape (`\"`, `\\`, `\/`, `\b`, `\f`, `\n`, `\r`, `\t`). -/
def escChar : Char → Option Char
  | '"' => some '"'
  | '\\' => some '\\'
  | '/' => some '/'
  | 'b' => some (Char.ofNat 8)
  | 'f' => some (Char.ofNat 12)
  | 'n' => some '\n'
  | 'r' => some '\r'
  | 't' => some '\t'
  | _ => none

def hexv (c : Char) : Option Nat :=
  if isDig c then some (c.toNat - 48)
  else if 'a' ≤ c && c ≤ 'f' then some (c.toNat - 87)
  else if 'A' ≤ c && c ≤ 'F' then some (c.toNat - 55)
  else none

def hex4v (a b c d : Char) : Option Nat := do
  let x1 ← hexv a
  let x2 ← hexv b
  let x3 ← hexv c
  let x4 ← hexv d
  pure (((x1 * 16 + x2) * 16 + x3) * 16 + x4)

/-- Scan a string body after the opening quote: decoded characters plus the
input after the closing quote.  Raw control characters are rejected, as
`JSON.parse` does.  `\uXXXX` denoting a surrogate half is rejected (a lone
surrogate is not a scalar value); the component never feeds one. -/
def scanStr : List Char → Option (List Char × List Char)
  | [] => none
  | c :: r =>
      if c = '"' then some ([], r)
      else if c = '\\' then
        match r with
        | 'u' :: h1 :: h2 :: h3 :: h4 :: r1 =>
            (match hex4v h1 h2 h3 h4 with
             | some n =>
                 if n < 0xd800 ∨ (0xdfff < n ∧ n < 0x110000) then
                   (scanStr r1).map (fun p => (Char.ofNat n :: p.1, p.2))
                 else none
             | none => none)
        | e :: r1 =>
            (match escChar e with
             | some ch => (scanStr r1).map (fun p => (ch :: p.1, p.2))
             | none => none)
        | [] => none
      else if c.toNat < 32 then none
      else (scanStr r).map (fun p => (c :: p.1, p.2))

/-- `JSON.parse` object construction assigns members left to right onto a
fresh object, so a duplicated key keeps its first position and last value. -/
def dedupFields (fs : List (String × JVal)) : List (String × JVal) :=
  assignAll [] fs

mutual
/-- One JSON value (fuel-indexed so totality is structural). -/
def parseJ : Nat → List Char → Option (JVal × List Char)
  | 0, _ => none
  | fuel + 1, cs =>
    match dropWs cs with
    | 'n' :: 'u' :: 'l' :: 'l' :: r => some (.null, r)
    | 't' :: 'r' :: 'u' :: 'e' :: r => some (.bool true, r)
    | 'f' :: 'a' :: 'l' :: 's' :: 'e' :: r => some (.bool false, r)
    | '"' :: r =>
        match scanStr r with
        | some (chars, r1) => some (.str ⟨chars⟩, r1)
        | none => none
    | '[' :: r =>
        (match dropWs r with
         | ']' :: r1 => some (.arr [], r1)
         | cs1 =>
             match parseItems fuel cs1 with
             | some (xs, r2) => some (.arr xs, r2)
             | none => none)
    | '\x7b' :: r =>
        (match dropWs r with
         | '\x7d' :: r1 => some (.obj [], r1)
         | cs1 =>
             match parseFields fuel cs1 with
             | some (fs, r2) => some (.obj (dedupFields fs), r2)
             | none => none)
    | cs' =>
        match scanNumber cs' with
        | some ((m, e), r1) => some (.num m e, r1)
        | none => none
/-- One-or-more comma-separated array elements, then the closing bracket. -/
def parseItems : Nat → List Char → Option (List JVal × List Char)
  | 0, _ => none
  | fuel + 1, cs =>
    match parseJ fuel cs with
    | none => none
    | some (v, r) =>
      match dropWs r with
      | ',' :: r1 =>
          (match parseItems fuel r1 with
           | some (xs, r2) => some (v :: xs, r2)
           | none => none)
      | ']' :: r1 => some ([v], r1)
      | _ => none
/-- One-or-more `"key": value` members, then the closing brace. -/
def parseFields : Nat → List Char → Option (List (String × JVal) × List Char)
  | 0, _ => none
  | fuel + 1, cs =>
    match dropWs cs with
    | '"' :: r =>
      match scanStr r with
      | none => none
      | some (kcs, r1) =>
        match dropWs r1 with
        | ':' :: r2 =>
          match parseJ fuel r2 with
          | none => none
          | some (v, r3) =>
            match dropWs r3 with
            | ',' :: r4 =>
                (match parseFields fuel r4 with
                 | some (fs, r5) => some ((⟨kcs⟩, v) :: fs, r5)
                 | none => none)
            | '\x7d' :: r4 => some ([(⟨kcs⟩, v)], r4)
            | _ => none
        | _ => none
    | _ => none
end

/-- The model of `JSON.parse`: a whole document, allowing surrounding
whitespace, rejecting trailing garbage.  `none` is a thrown `SyntaxError`.
It also models the lenient third-party `jsonc-parser` `parse` on the
well-formed documents this component passes it (`none` playing the
`undefined` that function yields on empty input). -/
def jsonParse (s : String) : Option JVal :=
  match parseJ (s.length + 1) s.toList with
  | some (v, r) => if (dropWs r).isEmpty then some v else none
  | none => none

/-! ### Rendering values back to text -/

def digitChar (n : Nat) : Char := Char.ofNat (48 + n)

/-- Decimal digits of `n`, most significant first (no leading zeros except
for `0` itself). -/
def digitsOf (n : Nat) : List Char :=
  if n < 10 then [digitChar n]
  else digitsOf (n / 10) ++ [digitChar (n % 10)]
termination_by n
decreasing_by
  simp only [not_lt] at *
  omega

/-- Characters of an integer: optional minus, then decimal digits. -/
def intChars (i : Int) : List Char :=
  if i < 0 then '-' :: digitsOf i.natAbs else digitsOf i.natAbs

def natStr (n : Nat) : String := ⟨digitsOf n⟩

def intStr (i : Int) : String := ⟨intChars i⟩

def hexChar (n : Nat) : Char :=
  if n < 10 then Char.ofNat (48 + n) else Char.ofNat (87 + n)

/-- JSON escape of one character, `JSON.stringify` style: the named escapes
for quote, backslash and the usual control characters, `\u00xx` for the
remaining control characters, everything else verbatim. -/
def escSeq (c : Char) : List Char :=
  if c = '"' then ['\\', '"']
  else if c = '\\' then ['\\', '\\']
  else if c = Char.ofNat 8 then ['\\', 'b']
  else if c = Char.ofNat 12 then ['\\', 'f']
  else if c = '\n' then ['\\', 'n']
  else if c = '\r' then ['\\', 'r']
  else if c = '\t' then ['\\', 't']
  else if c.toNat < 32 then
    ['\\', 'u', '0', '0', hexChar (c.toNat / 16), hexChar (c.toNat % 16)]
  else [c]

/-- A quoted, escaped JSON string literal as characters. -/
def strChars (s : String) : List Char :=
  '"' :: (s.toList.flatMap escSeq ++ ['"'])

/-- Characters of a number in `mantissa`/`e`/`exponent` form (an exact
rendering of the model's numbers; a plain integer when the exponent is 0). -/
def numChars (m e : Int) : List Char :=
  intChars m ++ (if e = 0 then [] else 'e' :: intChars e)

mutual
/-- Minimal (whitespace-free) rendering of a value. -/
def printJ : JVal → List Char
  | .num m e => numChars m e
  | .str s => strChars s
  | .arr xs => '[' :: (printItems xs ++ [']'])
  | .obj fs => '\x7b' :: (printFields fs ++ ['\x7d'])
  | .bool false => ['f', 'a', 'l', 's', 'e']
  | .bool true => ['t', 'r', 'u', 'e']
  | .null => ['n', 'u', 'l', 'l']
def printItems : List JVal → List Char
  | [] => []
  | [x] => printJ x
  | x :: y :: xs => printJ x ++ ',' :: printItems (y :: xs)
def printFields : List (String × JVal) → List Char
  | [] => []
  | [(k, v)] => strChars k ++ ':' :: printJ v
  | (k, v) :: f :: fs => strChars k ++ ':' :: printJ v ++ ',' :: printFields (f :: fs)
end

/-- Render a document to a string (the shape `applyEdits` hands back, up to
whitespace formatting). -/
def serializeJ (v : JVal) : String := ⟨printJ v⟩

/-- A remainder that cannot extend a number lexeme: empty, or headed by a
character that is no digit and none of `.`, `e`, `E`. -/
def numStop : List Char → Bool
  | [] => true
  | c :: _ => !(isDig c || c == '.' || c == 'e' || c == 'E')

/-! ### Paths and value access -/

/-- One segment of a `NodeData["path"]` (`(string | number)[]` in the
source): an object key or an array index. -/
inductive Seg where
  | key (s : String)
  | idx (n : Nat)
deriving DecidableEq

/-- Structural access: the subvalue an object key / array index chain
denotes, `none` when the path leaves the document's shape. -/
def getAt : JVal → List Seg → Option JVal
  | v, [] => some v
  | .obj fs, .key k :: p =>
      (match assocGet fs k with
       | some w => getAt w p
       | none => none)
  | .arr xs, .idx i :: p =>
      (match xs.get? i with
       | some w => getAt w p
       | none => none)
  | _, _ :: _ => none

/-- The canonical decimal numeral a string denotes, if any (no sign, no
leading zeros): JS uses these for array-index property keys. -/
def canonNat? (s : String) : Option Nat :=
  let cs := s.toList
  if cs.all isDig && intPartOk cs then some (digitsVal cs) else none

/-- One step of JS bracket indexing `current[segment]` on parsed JSON data,
with `none` for `undefined`; reading a property of `null` or `undefined`
throws.  Arrays and strings expose elements and `length`; other own
properties (methods etc.) are irrelevant to parsed documents and read as
`undefined`. -/
def jsIndex : Option JVal → Seg → Except Unit (Option JVal)
  | none, _ => .error ()
  | some .null, _ => .error ()
  | some (.obj fs), .key k => .ok (assocGet fs k)
  | some (.obj fs), .idx n => .ok (assocGet fs (natStr n))
  | some (.arr xs), .idx n => .ok (xs.get? n)
  | some (.arr xs), .key k =>
      .ok (if k = "length" then some (.num (xs.length : Int) 0)
           else match canonNat? k with
                | some n => xs.get? n
                | none => none)
  | some (.str s), .idx n => .ok ((s.toList.get? n).map fun c => .str ⟨[c]⟩)
  | some (.str s), .key k =>
      .ok (if k = "length" then some (.num (s.length : Int) 0)
           else match canonNat? k with
                | some n => (s.toList.get? n).map fun c => .str ⟨[c]⟩
                | none => none)
  | some (.num _ _), _ => .ok none
  | some (.bool _), _ => .ok none

/-- The `for (const segment of path)` loop of `getValueAtPath`, stepping
`current = current[segment]`; `Except` carries a thrown `TypeError`. -/
def traverseSegs : Option JVal → List Seg → Except Unit (Option JVal)
  | cur, [] => .ok cur
  | cur, s :: p =>
      match jsIndex cur s with
      | .ok next => traverseSegs next p
      | .error e => .error e

/-- `getValueAtPath` from the source: parse, walk the path, and let the
surrounding `try`/`catch` turn any throw into `null`. -/
def getValueAtPath (json : String) (path : List Seg) : Option JVal :=
  match traverseSegs (jsonParse json) path with
  | .ok cur => cur
  | .error _ => some .null

/-! ### The edited-text coercion of `handleSave` -/

/-- `String.prototype.trim` (modelled over the ASCII whitespace set). -/
def jsTrim (s : String) : String :=
  ⟨((s.toList.dropWhile jsWs).reverse.dropWhile jsWs).reverse⟩

/-- The `/^[-0-9.]+$/` test of `handleSave`. -/
def numericish (s : String) : Bool :=
  !s.toList.isEmpty && s.toList.all fun c => c == '-' || isDig c || c == '.'

/-- `trimmed.replace(/^"|"$/g, "")`: one leading and one trailing
double-quote character removed. -/
def stripOuterQuotes (s : String) : String :=
  let cs := s.toList
  let cs1 := match cs with
    | '"' :: t => t
    | _ => cs
  let cs2 := if cs1.getLast? = some '"' then cs1.dropLast else cs1
  ⟨cs2⟩

/-- The edited-text coercion of `handleSave`: try `JSON.parse`; on failure
re-parse the trimmed text when it looks like a number / `null` / `true` /
`false` (this inner parse can itself throw), else fall back to the trimmed
text as a string with outer quotes stripped.  `Except` carries the thrown
`SyntaxError`'s message. -/
def coerceEdited (raw : String) : Except String JVal :=
  match jsonParse raw with
  | some v => .ok v
  | none =>
    if numericish (jsTrim raw) || jsTrim raw = "null" || jsTrim raw = "true"
        || jsTrim raw = "false" then
      match jsonParse (jsTrim raw) with
      | some v => .ok v
      | none => .error "Unexpected token in JSON"
    else .ok (.str (stripOuterQuotes (jsTrim raw)))

/-- The merge step of `handleSave`: when the original value at the path and
the edited value are both non-null, non-array objects, spread the edited
fields over the original ones; otherwise keep the edited value.  (`typeof x
=== "object"` with `x !== null` and `!Array.isArray(x)` holds exactly for
`.obj` in this model; `undefined`, i.e. `none`, is not an object.) -/
def mergeForSave (originalValue : Option JVal) (editedValue : JVal) : JVal :=
  match originalValue, editedValue with
  | some (.obj ofs), .obj efs => .obj (assignAll ofs efs)
  | _, _ => editedValue

/-- Replace the value a path denotes, keeping everything else: objects
update (or, at the final segment, insert) the key's entry in place, arrays
update the index in place.  `Except` carries the errors the patch library
throws on paths that do not fit the document. -/
def setAtPath : JVal → List Seg → JVal → Except String JVal
  | _, [], nv => .ok nv
  | .obj fs, .key k :: p, nv =>
      (match assocGet fs k with
       | some old => (setAtPath old p nv).map fun w => .obj (assocSet fs k w)
       | none =>
           if p.isEmpty then .ok (.obj (assocSet fs k nv))
           else .error "path not found in document")
  | .arr xs, .idx i :: p, nv =>
      (match xs.get? i with
       | some old => (setAtPath old p nv).map fun w => .arr (xs.set i w)
       | none => .error "array index out of range")
  | _, _ :: _, _ => .error "path does not match document"

/-- Modelled from the spec: the third-party `jsonc-parser` pair
`modify`/`applyEdits` (not part of this repository's sources) "computes a
textual diff" that "merges [the value] into the full document at the node's
path"; semantically, the new document is the old one with the value at the
path replaced, rendered back to text (formatting options affect only
whitespace and are not modelled). -/
def modifyApply (original : String) (path : List Seg) (v : JVal) :
    Except String String :=
  match jsonParse original with
  | none => .error "invalid document"
  | some d => (setAtPath d path v).map serializeJ

/-! ### Node rows and `normalizeNodeData` -/

/-- A scalar cell of a node row (`NodeData["text"]` entries carry JSON
scalars once arrays and objects are filtered out). -/
inductive RowVal where
  | rstr (s : String)
  | rint (n : Int)
  | rbool (b : Bool)
  | rnull
deriving DecidableEq

/-- One row of a node's text: optional key, scalar value, and the row's
type tag ("string", "number", "array", "object", ...). -/
structure NodeRow where
  key : Option String
  value : RowVal
  rowType : String
deriving DecidableEq

/-- JS truthiness of `row.key` (`undefined` and `""` are falsy). -/
def keyTruthy : Option String → Bool
  | some s => s != ""
  | none => false

/-- Template-literal conversion of a row value (the single keyless-row
branch returns the bare value as a string). -/
def rowValText : RowVal → String
  | .rstr s => s
  | .rint n => intStr n
  | .rbool true => "true"
  | .rbool false => "false"
  | .rnull => "null"

/-- `JSON.stringify` of one scalar row value. -/
def rowValJson : RowVal → String
  | .rstr s => ⟨strChars s⟩
  | .rint n => intStr n
  | .rbool true => "true"
  | .rbool false => "false"
  | .rnull => "null"

/-- A row survives the filter when its type is neither "array" nor
"object" and its key is truthy. -/
def rowKeep (r : NodeRow) : Bool :=
  r.rowType != "array" && r.rowType != "object" && keyTruthy r.key

/-- The object `normalizeNodeData` builds: assign each surviving row's key
to its value, in order (a duplicated key keeps its first position and last
value, as JS assignment does). -/
def rowsObj (rows : List NodeRow) : List (String × RowVal) :=
  rows.foldl (fun o r => if rowKeep r then assocSet o (r.key.getD "") r.value else o) []

/-- Whether a string is a JS array-index property key (canonical numeral
below `2^32 - 1`): such keys enumerate first, in ascending order. -/
def isIdxKey (s : String) : Bool :=
  match canonNat? s with
  | some n => n < 4294967295
  | none => false

def insOrd {β : Type} (x : Nat × β) : List (Nat × β) → List (Nat × β)
  | [] => [x]
  | y :: ys => if x.1 ≤ y.1 then x :: y :: ys else y :: insOrd x ys

def sortPairs {β : Type} : List (Nat × β) → List (Nat × β)
  | [] => []
  | x :: xs => insOrd x (sortPairs xs)

/-- JS own-property enumeration order: array-index keys ascending, then the
remaining keys in insertion order. -/
def jsEnumOrder {β : Type} (l : List (String × β)) : List (String × β) :=
  let idxs := l.filterMap fun e =>
    match canonNat? e.1 with
    | some n => if n < 4294967295 then some (n, e) else none
    | none => none
  (sortPairs idxs).map Prod.snd ++ l.filter fun e => !(isIdxKey e.1)

/-- `JSON.stringify(obj, null, 2)` for a flat object of scalars. -/
def stringify2 (entries : List (String × RowVal)) : String :=
  match jsEnumOrder entries with
  | [] => "\x7b\x7d"
  | es =>
      "\x7b\n"
        ++ String.intercalate ",\n"
            (es.map fun e => "  " ++ (⟨strChars e.1⟩ : String) ++ ": " ++ rowValJson e.2)
        ++ "\n\x7d"

/-- `normalizeNodeData` from the source: "\x7b\x7d" for a missing or empty
row list; a single keyless row prints its bare value; otherwise the
two-space-indented serialization of the surviving rows' object. -/
def normalizeNodeData : Option (List NodeRow) → String
  | none => "\x7b\x7d"
  | some [] => "\x7b\x7d"
  | some [r] =>
      if keyTruthy r.key then stringify2 (rowsObj [r]) else rowValText r.value
  | some rows => stringify2 (rowsObj rows)

/-! ### `jsonPathToString` -/

/-- One rendered path segment: numbers bare, strings double-quoted. -/
def segText : Seg → String
  | .idx n => natStr n
  | .key s => "\"" ++ s ++ "\""

/-- `jsonPathToString` from the source. -/
def jsonPathToString : Option (List Seg) → String
  | none => "$"
  | some [] => "$"
  | some segs => "$[" ++ String.intercalate "][" (segs.map segText) ++ "]"

/-! ### The component's state and handlers -/

/-- What the component reads off a `NodeData`: its id, its path in the
document, and its display rows. -/
structure GraphNode where
  id : String
  path : Option (List Seg)
  text : List NodeRow
deriving DecidableEq

/-- The stores and local state the modal touches: the file store
(`contents`/`hasChanges`), the JSON store, the graph store (source it was
built from, node list, selection), the local edit state, and the queue of
`setTimeout` callbacks still pending (delay in ms, node id to re-select). -/
structure AppState where
  fileContents : String
  fileHasChanges : Bool
  jsonStore : String
  graphSource : String
  graphNodes : List GraphNode
  selectedNode : Option GraphNode
  isEditing : Bool
  value : String
  error : Option String
  pendingReselect : List (Nat × String)
deriving DecidableEq

def reselectDelayMs : Nat := 50

def nodeText (st : AppState) : List NodeRow :=
  (st.selectedNode.map GraphNode.text).getD []

def handleEdit (st : AppState) : AppState := { st with isEditing := true }

/-- `handleCancel`: restore the normalized text, leave edit mode, clear the
error. -/
def handleCancel (st : AppState) : AppState :=
  { st with
    value := normalizeNodeData (some (nodeText st))
    isEditing := false
    error := none }

/-- The `useEffect` body run when the selected node's id or the `opened`
flag changes (the same reset `handleCancel` performs). -/
def modalEffect (st : AppState) : AppState :=
  { st with
    value := normalizeNodeData (some (nodeText st))
    isEditing := false
    error := none }

/-- The textarea's `onChange`. -/
def setEditValue (s : String) (st : AppState) : AppState := { st with value := s }

/-- The fallible part of `handleSave` (everything inside the `try` up to
and including `applyEdits`): `none` when no node is selected, otherwise the
new JSON text and the id to re-select, or the thrown error's message. -/
def handleSaveCore (st : AppState) : Option (Except String (String × String)) :=
  match st.selectedNode with
  | none => none
  | some nodeData =>
    some
      (match coerceEdited st.value with
       | .error msg => .error msg
       | .ok editedValue =>
         match modifyApply st.jsonStore (nodeData.path.getD [])
             (mergeForSave (getValueAtPath st.jsonStore (nodeData.path.getD []))
               editedValue) with
         | .error msg => .error msg
         | .ok newJson => .ok (newJson, nodeData.id))

/-- `handleSave`: on success push the new text into the file store, the
JSON store and the graph (rebuilt from the new text via `rebuild`),
schedule the 50 ms re-selection, leave edit mode and clear the error; on a
throw only record the error message. -/
def handleSave (rebuild : String → List GraphNode) (st : AppState) : AppState :=
  match handleSaveCore st with
  | none => st
  | some (.error msg) => { st with error := some msg }
  | some (.ok (newJson, nid)) =>
      { st with
        fileContents := newJson
        fileHasChanges := true
        jsonStore := newJson
        graphSource := newJson
        graphNodes := rebuild newJson
        pendingReselect := st.pendingReselect ++ [(reselectDelayMs, nid)]
        isEditing := false
        error := none }

/-- The `setTimeout` callback: look the saved id up in the (rebuilt) node
list and select it when found. -/
def fireReselect (nid : String) (st : AppState) : AppState :=
  match st.graphNodes.find? (fun n => n.id == nid) with
  | some updatedNode => { st with selectedNode := some updatedNode }
  | none => st

/-- The three external stores (file contents with its dirty flag, JSON
store, graph) are the same in both states. -/
def preservesStores (st st' : AppState) : Prop :=
  st'.fileContents = st.fileContents ∧ st'.fileHasChanges = st.fileHasChanges
    ∧ st'.jsonStore = st.jsonStore ∧ st'.graphSource = st.graphSource
    ∧ st'.graphNodes = st.graphNodes

/-- The value the last surviving row gives a key (what `rowsObj` must look
up to, claim-side formulation for `normalizeNodeData`). -/
def lastRowVal (rows : List NodeRow) (k : String) : Option RowVal :=
  ((rows.filter rowKeep).reverse.find? fun r => r.key == some k).map NodeRow.value

/-! ### Association-list lemmas -/

theorem assocGet_set_self {β : Type} (l : List (String × β)) (k : String) (v : β) :
    assocGet (assocSet l k v) k = some v := by
  induction l with
  | nil => simp [assocSet, assocGet]
  | cons e t ih =>
      obtain ⟨k1, v1⟩ := e
      by_cases hk : k1 = k
      · subst hk; simp [assocSet, assocGet]
      · simp only [assocSet, if_neg hk, assocGet, ih]

theorem assocGet_set_other {β : Type} (l : List (String × β)) (k k' : String) (v : β)
    (hne : k' ≠ k) : assocGet (assocSet l k' v) k = assocGet l k := by
  induction l with
  | nil => simp [assocSet, assocGet, hne]
  | cons e t ih =>
      obtain ⟨k1, v1⟩ := e
      by_cases hk : k1 = k'
      · subst hk
        simp only [assocSet, if_pos rfl, assocGet, if_neg hne]
      · simp only [assocSet, if_neg hk, assocGet, ih]

theorem assocGet_eq_none {β : Type} {l : List (String × β)} {k : String}
    (h : k ∉ l.map Prod.fst) : assocGet l k = none := by
  induction l with
  | nil => simp [assocGet]
  | cons e t ih =>
      obtain ⟨k1, v1⟩ := e
      simp only [List.map_cons, List.mem_cons, not_or] at h
      have hne : k1 ≠ k := fun he => h.1 he.symm
      simp only [assocGet, if_neg hne, ih h.2]

/-- Assigning a fresh key appends the entry. -/
theorem assocSet_append {β : Type} {l : List (String × β)} {k : String} (v : β)
    (h : k ∉ l.map Prod.fst) : assocSet l k v = l ++ [(k, v)] := by
  induction l with
  | nil => simp [assocSet]
  | cons e t ih =>
      obtain ⟨k1, v1⟩ := e
      simp only [List.map_cons, List.mem_cons, not_or] at h
      have hne : k1 ≠ k := fun he => h.1 he.symm
      simp only [assocSet, if_neg hne, List.cons_append, ih h.2]

/-- Updates touching none of a key's occurrences leave its lookup alone. -/
theorem assignAll_get_absent {β : Type} (upds : List (String × β)) (base : List (String × β))
    (k : String) (h : assocGet upds k = none) :
    assocGet (assignAll base upds) k = assocGet base k := by
  induction upds generalizing base with
  | nil => simp [assignAll]
  | cons e t ih =>
      obtain ⟨k1, v1⟩ := e
      by_cases hk : k1 = k
      · subst hk; simp [assocGet] at h
      · simp only [assocGet, if_neg hk] at h
        simp only [assignAll, List.foldl_cons] at ih ⊢
        rw [ih _ h, assocGet_set_other _ _ _ _ hk]

theorem keysFresh_iff {ks : List String} : keysFresh ks = true ↔ ks.Nodup := by
  induction ks with
  | nil => simp [keysFresh]
  | cons k t ih => simp [keysFresh, ih, List.nodup_cons]

/-- With pairwise-distinct update keys (every JS object satisfies this),
the update list's own lookup wins. -/
theorem assignAll_get_present {β : Type} (upds : List (String × β)) (base : List (String × β))
    (k : String) (v : β) (hf : keysFresh (upds.map Prod.fst) = true)
    (h : assocGet upds k = some v) : assocGet (assignAll base upds) k = some v := by
  induction upds generalizing base with
  | nil => simp [assocGet] at h
  | cons e t ih =>
      obtain ⟨k1, v1⟩ := e
      rw [keysFresh_iff, List.map_cons, List.nodup_cons] at hf
      simp only [assignAll, List.foldl_cons]
      by_cases hk : k1 = k
      · subst hk
        simp [assocGet] at h
        have habs : assocGet t k1 = none := assocGet_eq_none hf.1
        have h2 := assignAll_get_absent t (assocSet base k1 v1) k1 habs
        rw [assocGet_set_self] at h2
        simpa [assignAll, h] using h2
      · simp only [assocGet, if_neg hk] at h
        exact ih _ (keysFresh_iff.mpr hf.2) h

/-- Assigning pairwise-fresh entries onto a base whose keys avoid them all
just appends them (so `JSON.parse`'s object construction is the member list
itself when the keys are unique). -/
theorem assignAll_append {β : Type} (upds : List (String × β)) :
    ∀ base : List (String × β),
      keysFresh (base.map Prod.fst ++ upds.map Prod.fst) = true →
      assignAll base upds = base ++ upds := by
  induction upds with
  | nil => intro base _; simp [assignAll]
  | cons e t ih =>
      intro base hf
      obtain ⟨k1, v1⟩ := e
      rw [keysFresh_iff] at hf
      have hnotin : k1 ∉ base.map Prod.fst := by
        rw [List.map_cons] at hf
        rw [List.nodup_append] at hf
        exact fun hm => hf.2.2 hm (by simp)
      simp only [assignAll, List.foldl_cons]
      rw [assocSet_append v1 hnotin]
      have hf' : keysFresh ((base ++ [(k1, v1)]).map Prod.fst ++ t.map Prod.fst) = true := by
        rw [keysFresh_iff]
        simp only [List.map_append, List.map_cons, List.map_nil] at hf ⊢
        simpa using hf
      have := ih (base ++ [(k1, v1)]) hf'
      simp only [assignAll] at this
      rw [this, List.append_assoc]
      rfl

theorem dedupFields_id {fs : List (String × JVal)}
    (hf : keysFresh (fs.map Prod.fst) = true) : dedupFields fs = fs := by
  have := assignAll_append fs [] (by simpa using hf)
  simpa [dedupFields] using this




/-! ### Well-formedness helpers -/

theorem wfItems_mem {xs : List JVal} (h : wfItems xs = true) {x : JVal} (hx : x ∈ xs) :
    wfJ x = true := by
  induction xs with
  | nil => cases hx
  | cons y ys ih =>
      rw [wfItems, Bool.and_eq_true] at h
      rcases List.mem_cons.mp hx with rfl | hx'
      · exact h.1
      · exact ih h.2 hx'

theorem wfFields_get {fs : List (String × JVal)} (h : wfFields fs = true) {k : String}
    {v : JVal} (hv : assocGet fs k = some v) : wfJ v = true := by
  induction fs with
  | nil => simp [assocGet] at hv
  | cons e t ih =>
      obtain ⟨k1, v1⟩ := e
      rw [wfFields, Bool.and_eq_true] at h
      by_cases hk : k1 = k
      · subst hk
        simp [assocGet] at hv
        exact hv ▸ h.1
      · rw [assocGet, if_neg hk] at hv
        exact ih h.2 hv

theorem wfFields_set {fs : List (String × JVal)} (h : wfFields fs = true) {k : String}
    {v : JVal} (hv : wfJ v = true) : wfFields (assocSet fs k v) = true := by
  induction fs with
  | nil => simp [assocSet, wfFields, hv]
  | cons e t ih =>
      obtain ⟨k1, v1⟩ := e
      rw [wfFields, Bool.and_eq_true] at h
      by_cases hk : k1 = k
      · subst hk
        simp [assocSet, wfFields, hv, h.2]
      · simp only [assocSet, if_neg hk, wfFields, Bool.and_eq_true]
        exact ⟨h.1, ih h.2⟩

theorem assocSet_keys {β : Type} (l : List (String × β)) (k : String) (v : β) :
    (assocSet l k v).map Prod.fst =
      if k ∈ l.map Prod.fst then l.map Prod.fst else l.map Prod.fst ++ [k] := by
  induction l with
  | nil => simp [assocSet]
  | cons e t ih =>
      obtain ⟨k1, v1⟩ := e
      by_cases hk : k1 = k
      · subst hk; simp [assocSet]
      · have hne : ¬(k = k1) := fun he => hk he.symm
        simp only [assocSet, if_neg hk, List.map_cons, List.mem_cons, ih]
        by_cases hmem : k ∈ t.map Prod.fst
        · simp [hmem, hne]
        · simp [hmem, hne]

theorem keysFresh_set {fs : List (String × JVal)} (h : keysFresh (fs.map Prod.fst) = true)
    (k : String) (v : JVal) : keysFresh ((assocSet fs k v).map Prod.fst) = true := by
  rw [keysFresh_iff] at h ⊢
  rw [assocSet_keys]
  by_cases hmem : k ∈ fs.map Prod.fst
  · simpa [hmem] using h
  · simp only [if_neg hmem]
    simpa [List.nodup_append, hmem] using h

theorem wfFields_assignAll {upds : List (String × JVal)} :
    ∀ {base : List (String × JVal)}, wfFields base = true → wfFields upds = true →
      wfFields (assignAll base upds) = true := by
  induction upds with
  | nil => intro base hb _; simpa [assignAll] using hb
  | cons e t ih =>
      intro base hb hu
      obtain ⟨k1, v1⟩ := e
      rw [wfFields, Bool.and_eq_true] at hu
      simp only [assignAll, List.foldl_cons]
      exact ih (wfFields_set hb hu.1) hu.2

theorem keysFresh_assignAll {upds : List (String × JVal)} :
    ∀ {base : List (String × JVal)}, keysFresh (base.map Prod.fst) = true →
      keysFresh ((assignAll base upds).map Prod.fst) = true := by
  induction upds with
  | nil => intro base hb; simpa [assignAll] using hb
  | cons e t ih =>
      intro base hb
      simp only [assignAll, List.foldl_cons]
      exact ih (keysFresh_set hb e.1 e.2)

/-- The spread of two well-formed objects is well-formed. -/
theorem wfJ_assignAll {ofs efs : List (String × JVal)} (ho : wfJ (.obj ofs) = true)
    (he : wfJ (.obj efs) = true) : wfJ (.obj (assignAll ofs efs)) = true := by
  rw [wfJ, Bool.and_eq_true] at ho he ⊢
  exact ⟨keysFresh_assignAll ho.1, wfFields_assignAll ho.2 he.2⟩

/-! ### Decimal digit lemmas -/

theorem digitChar_toNat {d : Nat} (h : d < 10) : (digitChar d).toNat = 48 + d := by
  interval_cases d <;> decide

theorem isDig_digitChar {d : Nat} (h : d < 10) : isDig (digitChar d) = true := by
  interval_cases d <;> decide

theorem digitsOf_ne_nil (n : Nat) : digitsOf n ≠ [] := by
  rw [digitsOf]
  split <;> simp

theorem digitsOf_all_dig (n : Nat) : ∀ c ∈ digitsOf n, isDig c = true := by
  induction n using Nat.strongRecOn with
  | _ n ih =>
    rw [digitsOf]
    split
    · intro c hc
      rw [List.mem_singleton] at hc
      exact hc ▸ isDig_digitChar (by omega)
    · intro c hc
      rcases List.mem_append.mp hc with h1 | h2
      · exact ih (n / 10) (by omega) c h1
      · rw [List.mem_singleton] at h2
        exact h2 ▸ isDig_digitChar (Nat.mod_lt _ (by omega))

theorem digitsVal_digitsOf (n : Nat) : digitsVal (digitsOf n) = n := by
  induction n using Nat.strongRecOn with
  | _ n ih =>
    rw [digitsOf]
    split
    · simp [digitsVal, digitChar_toNat (by omega : n < 10)]
    · rw [digitsVal, List.foldl_append]
      have := ih (n / 10) (by omega)
      rw [digitsVal] at this
      rw [this]
      simp only [List.foldl_cons, List.foldl_nil]
      rw [digitChar_toNat (Nat.mod_lt _ (by omega))]
      omega

theorem digitsOf_cons (n : Nat) : ∃ c t, digitsOf n = c :: t ∧ isDig c = true := by
  match h : digitsOf n with
  | [] => exact absurd h (digitsOf_ne_nil n)
  | c :: t => exact ⟨c, t, rfl, digitsOf_all_dig n c (h ▸ List.mem_cons_self ..)⟩

theorem digitsOf_head_ne_zero (m : Nat) (hm : 1 ≤ m) :
    ∀ c t, digitsOf m = c :: t → c ≠ '0' := by
  induction m using Nat.strongRecOn with
  | _ m ih =>
    intro c t hct
    rw [digitsOf] at hct
    split at hct
    · rw [List.cons.injEq] at hct
      have h1 : m < 10 := by assumption
      intro hc
      have hz : digitChar m = '0' := hct.1.trans hc
      have := digitChar_toNat h1
      rw [hz] at this
      have h0 : ('0').toNat = 48 := by decide
      omega
    · obtain ⟨c0, t0, h0, _⟩ := digitsOf_cons (m / 10)
      rw [h0, List.cons_append, List.cons.injEq] at hct
      exact hct.1 ▸ ih (m / 10) (by omega) (by omega) c0 t0 h0

theorem intPartOk_digitsOf (n : Nat) : intPartOk (digitsOf n) = true := by
  by_cases h : n < 10
  · rw [digitsOf, if_pos h]
    rfl
  · rw [digitsOf, if_neg h]
    obtain ⟨c0, t0, h0, _⟩ := digitsOf_cons (n / 10)
    have hne := digitsOf_head_ne_zero (n / 10) (by omega) c0 t0 h0
    rw [h0, List.cons_append]
    cases t0 ++ [digitChar (n % 10)] with
    | nil => rfl
    | cons a b =>
        rw [intPartOk]
        simp [hne]

/-! ### Character-class lemmas -/

theorem isDig_toNat {c : Char} (h : isDig c = true) : 48 ≤ c.toNat ∧ c.toNat ≤ 57 := by
  rw [isDig, Bool.and_eq_true, decide_eq_true_eq, decide_eq_true_eq] at h
  obtain ⟨h1, h2⟩ := h
  rw [Char.le_def] at h1 h2
  exact ⟨h1, h2⟩

theorem isDig_ne {c : Char} (h : isDig c = true) {x : Char}
    (hx : x.toNat < 48 ∨ 57 < x.toNat) : c ≠ x := by
  obtain ⟨h1, h2⟩ := isDig_toNat h
  intro he
  subst he
  omega

theorem isDig_not_ws {c : Char} (h : isDig c = true) : jsWs c = false := by
  rw [jsWs]
  have hs : c ≠ ' ' := isDig_ne h (by decide)
  have ht : c ≠ '\t' := isDig_ne h (by decide)
  have hn : c ≠ '\n' := isDig_ne h (by decide)
  have hr : c ≠ '\r' := isDig_ne h (by decide)
  simp [hs, ht, hn, hr]

/-! ### Digit-run scanning lemmas -/

theorem spanDigits_not_dig {c : Char} (t : List Char) (h : isDig c = false) :
    spanDigits (c :: t) = ([], c :: t) := by
  simp [spanDigits, h]

theorem numStop_head {c : Char} {t : List Char} (h : numStop (c :: t) = true) :
    isDig c = false ∧ c ≠ '.' ∧ c ≠ 'e' ∧ c ≠ 'E' := by
  rw [numStop, Bool.not_eq_true'] at h
  simp only [Bool.or_eq_false_iff, beq_eq_false_iff_ne] at h
  exact ⟨h.1.1.1, h.1.1.2, h.1.2, h.2⟩

theorem spanDigits_stop {cs : List Char} (h : numStop cs = true) :
    spanDigits cs = ([], cs) :=
  match cs with
  | [] => rfl
  | _ :: t => spanDigits_not_dig t (numStop_head h).1

theorem spanDigits_run :
    ∀ ds : List Char, (∀ c ∈ ds, isDig c = true) →
      ∀ rest : List Char, spanDigits rest = ([], rest) →
        spanDigits (ds ++ rest) = (ds, rest) := by
  intro ds
  induction ds with
  | nil => intro _ rest hr; simpa using hr
  | cons c t ih =>
      intro hds rest hr
      have hc : isDig c = true := hds c (List.mem_cons_self c t)
      have ht := ih (fun x hx => hds x (List.mem_cons_of_mem c hx)) rest hr
      simp [spanDigits, hc, ht]

/-! ### Number codec round-trip -/

theorem digitsOf_spanDigits (n : Nat) {rest : List Char}
    (hr : spanDigits rest = ([], rest)) :
    spanDigits (digitsOf n ++ rest) = (digitsOf n, rest) :=
  spanDigits_run _ (digitsOf_all_dig n) rest hr

theorem scanFrac_skip {cs : List Char} (h : ∀ c t, cs = c :: t → c ≠ '.') :
    scanFrac cs = some ([], cs) := by
  cases cs with
  | nil => rfl
  | cons c t => rw [scanFrac, if_neg (h c t rfl)]

theorem scanExp_skip {cs : List Char} (h : ∀ c t, cs = c :: t → c ≠ 'e' ∧ c ≠ 'E') :
    scanExp cs = some (0, cs) := by
  cases cs with
  | nil => rfl
  | cons c t =>
      rw [scanExp, if_neg]
      rintro (he | hE)
      · exact (h c t rfl).1 he
      · exact (h c t rfl).2 hE

/-- Scanning the rendered exponent after the `e` marker recovers it, for any
remainder that cannot extend the digit run. -/
theorem scanExpTail_round (e : Int) (rest : List Char)
    (hr : numStop rest = true) :
    scanExpTail (intChars e ++ rest) = some (e, rest) := by
  by_cases hneg : e < 0
  · have hspan := digitsOf_spanDigits e.natAbs (spanDigits_stop hr)
    have hne : ¬(digitsOf e.natAbs).isEmpty = true := by
      simp [List.isEmpty_iff, digitsOf_ne_nil]
    rw [intChars, if_pos hneg, List.cons_append]
    simp [scanExpTail, hspan, hne, digitsVal_digitsOf]
    rw [abs_of_neg hneg]
    ring
  · obtain ⟨c0, t0, h0, hc0⟩ := digitsOf_cons e.natAbs
    have hplus : c0 ≠ '+' := isDig_ne hc0 (by decide)
    have hminus : c0 ≠ '-' := isDig_ne hc0 (by decide)
    have hspan : spanDigits (c0 :: (t0 ++ rest)) = (c0 :: t0, rest) := by
      have := digitsOf_spanDigits e.natAbs (spanDigits_stop hr)
      rwa [h0, List.cons_append] at this
    have hdv : digitsVal (c0 :: t0) = e.natAbs := by
      have := digitsVal_digitsOf e.natAbs
      rwa [h0] at this
    rw [intChars, if_neg hneg, h0, List.cons_append]
    simp only [scanExpTail, if_neg hplus, if_neg hminus, hspan, hdv]
    have hne : ¬(c0 :: t0).isEmpty = true := by simp
    simp only [hne, if_neg]
    simp
    omega

/-- Scanning a rendered number recovers its mantissa and exponent, for any
remainder that cannot extend a number lexeme. -/
theorem scanNumber_round (m e : Int) (rest : List Char) (hr : numStop rest = true) :
    scanNumber (numChars m e ++ rest) = some ((m, e), rest) := by
  have hexp :
      ∀ tail : List Char,
        ((e = 0 ∧ tail = rest) ∨ (e ≠ 0 ∧ tail = 'e' :: (intChars e ++ rest))) →
        spanDigits tail = ([], tail) ∧ scanFrac tail = some ([], tail) ∧
          scanExp tail = some (e, rest) := by
    rintro tail (⟨he0, rfl⟩ | ⟨hene, rfl⟩)
    · refine ⟨spanDigits_stop hr, scanFrac_skip ?_, ?_⟩
      · intro c t hct
        rw [hct] at hr
        exact (numStop_head hr).2.1
      · rw [he0]
        apply scanExp_skip
        intro c t hct
        rw [hct] at hr
        exact ⟨(numStop_head hr).2.2.1, (numStop_head hr).2.2.2⟩
    · refine ⟨spanDigits_not_dig _ (by decide), scanFrac_skip ?_, ?_⟩
      · intro c t hct
        rw [List.cons.injEq] at hct
        rw [← hct.1]
        decide
      · rw [scanExp, if_pos (Or.inl rfl)]
        exact scanExpTail_round e rest hr
  have htail :
      ((e = 0 ∧ (if e = 0 then ([] : List Char) else 'e' :: intChars e) ++ rest = rest) ∨
        (e ≠ 0 ∧ (if e = 0 then ([] : List Char) else 'e' :: intChars e) ++ rest
            = 'e' :: (intChars e ++ rest))) := by
    by_cases he0 : e = 0
    · exact Or.inl ⟨he0, by simp [he0]⟩
    · exact Or.inr ⟨he0, by simp [he0]⟩
  obtain ⟨hsp, hsf, hse⟩ := hexp _ htail
  have hspan := digitsOf_spanDigits m.natAbs hsp
  by_cases hneg : m < 0
  · rw [numChars, intChars, if_pos hneg]
    simp only [List.cons_append, List.append_assoc]
    simp [scanNumber, hspan, intPartOk_digitsOf, hsf, hse, digitsVal_digitsOf]
    rw [abs_of_neg hneg]
    ring
  · obtain ⟨c0, t0, h0, hc0⟩ := digitsOf_cons m.natAbs
    have hminus : c0 ≠ '-' := isDig_ne hc0 (by decide)
    have hspan' : spanDigits (c0 :: (t0 ++ ((if e = 0 then ([] : List Char)
        else 'e' :: intChars e) ++ rest))) = (c0 :: t0, (if e = 0 then ([] : List Char)
        else 'e' :: intChars e) ++ rest) := by
      rwa [h0, List.cons_append] at hspan
    have hok : intPartOk (c0 :: t0) = true := by
      have := intPartOk_digitsOf m.natAbs
      rwa [h0] at this
    have hdv : digitsVal (c0 :: t0) = m.natAbs := by
      have := digitsVal_digitsOf m.natAbs
      rwa [h0] at this
    rw [numChars, intChars, if_neg hneg, h0]
    simp only [List.cons_append, List.append_assoc]
    simp only [scanNumber, if_neg hminus, hspan', hok, if_true, hsf, hse]
    simp [hdv]
    omega

/-! ### String codec round-trip -/

theorem hexv_hexChar {k : Nat} (h : k < 16) : hexv (hexChar k) = some k := by
  interval_cases k <;> decide

/-- Scanning one escaped character undoes the escape. -/
theorem escSeq_scan (c : Char) (rest : List Char) :
    scanStr (escSeq c ++ rest) = (scanStr rest).map fun p => (c :: p.1, p.2) := by
  rw [escSeq]
  by_cases h1 : c = '"'
  · subst h1; simp [scanStr, escChar]
  by_cases h2 : c = '\\'
  · subst h2; simp [scanStr, escChar, h1]
  by_cases h3 : c = Char.ofNat 8
  · subst h3; simp [scanStr, escChar, h1, h2]
  by_cases h4 : c = Char.ofNat 12
  · subst h4; simp [scanStr, escChar]
  by_cases h5 : c = '\n'
  · subst h5; simp [scanStr, escChar]
  by_cases h6 : c = '\r'
  · subst h6; simp [scanStr, escChar]
  by_cases h7 : c = '\t'
  · subst h7; simp [scanStr, escChar]
  rw [if_neg h1, if_neg h2, if_neg h3, if_neg h4, if_neg h5, if_neg h6, if_neg h7]
  by_cases h8 : c.toNat < 32
  · rw [if_pos h8]
    have hdiv : c.toNat / 16 < 16 := by omega
    have hmod : c.toNat % 16 < 16 := by omega
    have hhex : hex4v '0' '0' (hexChar (c.toNat / 16)) (hexChar (c.toNat % 16))
        = some c.toNat := by
      simp [hex4v, hexv_hexChar hdiv, hexv_hexChar hmod,
        show hexv '0' = some 0 by decide]
      omega
    have hlt : c.toNat < 55296 := by omega
    simp [scanStr, hhex, hlt, Char.ofNat_toNat]
  · rw [if_neg h8]
    simp only [List.cons_append, List.nil_append]
    rw [scanStr.eq_def]
    simp [h1, h2, h8]

/-- Scanning an escaped character run stops exactly at the closing quote. -/
theorem scanStr_flat :
    ∀ cs rest : List Char,
      scanStr (cs.flatMap escSeq ++ '"' :: rest) = some (cs, rest) := by
  intro cs
  induction cs with
  | nil =>
      intro rest
      rw [List.flatMap_nil, List.nil_append, scanStr.eq_def]
      simp
  | cons c t ih =>
      intro rest
      rw [List.flatMap_cons, List.append_assoc, escSeq_scan, ih]
      rfl

/-! ### Heads of rendered output -/

theorem printJ_head (v : JVal) :
    ∃ c t, printJ v = c :: t ∧ jsWs c = false ∧ c ≠ ']' := by
  cases v with
  | null => exact ⟨'n', _, rfl, by decide, by decide⟩
  | bool b =>
      cases b with
      | true => exact ⟨'t', _, rfl, by decide, by decide⟩
      | false => exact ⟨'f', _, rfl, by decide, by decide⟩
  | str s => exact ⟨'"', _, rfl, by decide, by decide⟩
  | arr xs => exact ⟨'[', _, rfl, by decide, by decide⟩
  | obj fs => exact ⟨'\x7b', _, rfl, by decide, by decide⟩
  | num m e =>
      by_cases hm : m < 0
      · refine ⟨'-', digitsOf m.natAbs ++ (if e = 0 then [] else 'e' :: intChars e),
          ?_, by decide, by decide⟩
        simp [printJ, numChars, intChars, hm]
      · obtain ⟨c0, t0, h0, hc0⟩ := digitsOf_cons m.natAbs
        refine ⟨c0, t0 ++ (if e = 0 then [] else 'e' :: intChars e), ?_,
          isDig_not_ws hc0, isDig_ne hc0 (by decide)⟩
        simp [printJ, numChars, intChars, hm, h0]

theorem printJ_length_pos (v : JVal) : 1 ≤ (printJ v).length := by
  obtain ⟨c, t, h, _, _⟩ := printJ_head v
  simp [h]

theorem dropWs_printJ (v : JVal) (x : List Char) :
    dropWs (printJ v ++ x) = printJ v ++ x := by
  obtain ⟨c, t, h, hws, _⟩ := printJ_head v
  rw [h, List.cons_append]
  simp [dropWs, hws]

theorem printItems_head (x : JVal) (xs : List JVal) :
    ∃ c t, printItems (x :: xs) = c :: t ∧ jsWs c = false ∧ c ≠ ']' := by
  obtain ⟨c, t, h, hws, hbr⟩ := printJ_head x
  cases xs with
  | nil => exact ⟨c, t, by simp [printItems, h], hws, hbr⟩
  | cons y ys =>
      exact ⟨c, t ++ ',' :: printItems (y :: ys), by simp [printItems, h], hws, hbr⟩

/-! ### Number dispatch in the value parser -/

theorem parseJ_num (m e : Int) (f : Nat) (rest : List Char) (hr : numStop rest = true) :
    parseJ (f + 1) (numChars m e ++ rest) = some (.num m e, rest) := by
  obtain ⟨c, t, hct, hws, hn, ht', hf, hq, hbk, hbc⟩ :
      ∃ c t, numChars m e ++ rest = c :: t ∧ jsWs c = false ∧
        c ≠ 'n' ∧ c ≠ 't' ∧ c ≠ 'f' ∧ c ≠ '"' ∧ c ≠ '[' ∧ c ≠ '\x7b' := by
    by_cases hm : m < 0
    · refine ⟨'-', digitsOf m.natAbs ++ ((if e = 0 then [] else 'e' :: intChars e) ++ rest),
        ?_, by decide, by decide, by decide, by decide, by decide, by decide, by decide⟩
      simp [numChars, intChars, hm]
    · obtain ⟨c0, t0, h0, hc0⟩ := digitsOf_cons m.natAbs
      refine ⟨c0, t0 ++ ((if e = 0 then [] else 'e' :: intChars e) ++ rest), ?_,
        isDig_not_ws hc0, isDig_ne hc0 (by decide),
        isDig_ne hc0 (by decide), isDig_ne hc0 (by decide), isDig_ne hc0 (by decide),
        isDig_ne hc0 (by decide), isDig_ne hc0 (by decide)⟩
      rw [numChars, intChars, if_neg hm, h0]
      simp
  rw [hct]
  simp only [parseJ]
  rw [show dropWs (c :: t) = c :: t from by simp [dropWs, hws]]
  simp [hn, ht', hf, hq, hbk, hbc]
  rw [← hct, scanNumber_round m e rest hr]

/-! ### Codec round-trip for the whole grammar -/

mutual
theorem rtVal : ∀ (v : JVal) (fuel : Nat) (rest : List Char),
    wfJ v = true → (printJ v).length < fuel → numStop rest = true →
    parseJ fuel (printJ v ++ rest) = some (v, rest)
  | .null, fuel, rest, _, hf, _ => by
      cases fuel with
      | zero => simp [printJ] at hf
      | succ f => simp [printJ, parseJ, dropWs, jsWs]
  | .bool b, fuel, rest, _, hf, _ => by
      cases fuel with
      | zero => cases b <;> simp [printJ] at hf
      | succ f => cases b <;> simp [printJ, parseJ, dropWs, jsWs]
  | .num m e, fuel, rest, _, hf, hr => by
      cases fuel with
      | zero => omega
      | succ f => exact parseJ_num m e f rest hr
  | .str s, fuel, rest, _, hf, _ => by
      cases fuel with
      | zero => omega
      | succ f =>
          have harg : printJ (.str s) ++ rest
              = '"' :: (s.toList.flatMap escSeq ++ '"' :: rest) := by
            simp [printJ, strChars]
          rw [harg]
          have step : parseJ (f + 1) ('"' :: (s.toList.flatMap escSeq ++ '"' :: rest))
              = (match scanStr (s.toList.flatMap escSeq ++ '"' :: rest) with
                 | some (chars, r1) => some (.str ⟨chars⟩, r1)
                 | none => none) := rfl
          rw [step, scanStr_flat]
          rfl
  | .arr [], fuel, rest, _, hf, _ => by
      cases fuel with
      | zero => simp [printJ, printItems] at hf
      | succ f => simp [printJ, printItems, parseJ, dropWs, jsWs]
  | .arr (x :: xs), fuel, rest, hw, hf, _ => by
      cases fuel with
      | zero => omega
      | succ f =>
          have hwf : wfItems (x :: xs) = true := by
            rw [wfJ] at hw
            exact hw
          have hfl : (printItems (x :: xs)).length + 1 < f := by
            rw [printJ] at hf
            simp only [List.length_cons, List.length_append] at hf
            simp only [List.length_cons, List.length_nil] at hf
            omega
          obtain ⟨c, t, hct, hws, hbr⟩ := printItems_head x xs
          have hkey := rtItems x xs f rest hwf hfl
          have harg : printJ (.arr (x :: xs)) ++ rest
              = '[' :: (printItems (x :: xs) ++ ']' :: rest) := by
            simp [printJ]
          rw [harg]
          have step : parseJ (f + 1) ('[' :: (printItems (x :: xs) ++ ']' :: rest))
              = (match dropWs (printItems (x :: xs) ++ ']' :: rest) with
                 | ']' :: r1 => some (.arr [], r1)
                 | cs1 =>
                     match parseItems f cs1 with
                     | some (vs, r2) => some (.arr vs, r2)
                     | none => none) := rfl
          rw [step]
          rw [show dropWs (printItems (x :: xs) ++ ']' :: rest)
              = printItems (x :: xs) ++ ']' :: rest from by
            rw [hct, List.cons_append]
            simp [dropWs, hws]]
          rw [hct, List.cons_append]
          split
          · rename_i r1 heq
            rw [List.cons.injEq] at heq
            exact absurd heq.1 hbr
          · rw [← List.cons_append, ← hct, hkey]
  | .obj [], fuel, rest, _, hf, _ => by
      cases fuel with
      | zero => simp [printJ, printFields] at hf
      | succ f => simp [printJ, printFields, parseJ, dropWs, jsWs]
  | .obj ((k, v) :: fs), fuel, rest, hw, hf, _ => by
      cases fuel with
      | zero => omega
      | succ f =>
          have hwf : wfFields ((k, v) :: fs) = true := by
            rw [wfJ, Bool.and_eq_true] at hw
            exact hw.2
          have hkf : keysFresh (((k, v) :: fs).map Prod.fst) = true := by
            rw [wfJ, Bool.and_eq_true] at hw
            exact hw.1
          have hfl : (printFields ((k, v) :: fs)).length + 1 < f := by
            rw [printJ] at hf
            simp only [List.length_cons, List.length_append] at hf
            simp only [List.length_cons, List.length_nil] at hf
            omega
          have hkey := rtFields (k, v) fs f rest hwf hfl
          have harg : printJ (.obj ((k, v) :: fs)) ++ rest
              = '\x7b' :: (printFields ((k, v) :: fs) ++ '\x7d' :: rest) := by
            simp [printJ]
          rw [harg]
          have step : parseJ (f + 1)
                ('\x7b' :: (printFields ((k, v) :: fs) ++ '\x7d' :: rest))
              = (match dropWs (printFields ((k, v) :: fs) ++ '\x7d' :: rest) with
                 | '\x7d' :: r1 => some (.obj [], r1)
                 | cs1 =>
                     match parseFields f cs1 with
                     | some (gs, r2) => some (.obj (dedupFields gs), r2)
                     | none => none) := rfl
          rw [step]
          obtain ⟨body, hX⟩ : ∃ body, printFields ((k, v) :: fs) = '"' :: body := by
            cases fs with
            | nil =>
                refine ⟨k.toList.flatMap escSeq ++ '"' :: ':' :: printJ v, ?_⟩
                simp [printFields, strChars]
            | cons g gs =>
                refine ⟨k.toList.flatMap escSeq
                  ++ '"' :: ':' :: (printJ v ++ ',' :: printFields (g :: gs)), ?_⟩
                simp [printFields, strChars]
          rw [hX, List.cons_append]
          rw [show dropWs ('"' :: (body ++ '\x7d' :: rest))
              = '"' :: (body ++ '\x7d' :: rest) from by simp [dropWs, jsWs]]
          have hred : (match '"' :: (body ++ '\x7d' :: rest) with
               | '\x7d' :: r1 => some (JVal.obj [], r1)
               | cs1 =>
                   match parseFields f cs1 with
                   | some (gs, r2) => some (JVal.obj (dedupFields gs), r2)
                   | none => none)
              = (match parseFields f ('"' :: (body ++ '\x7d' :: rest)) with
                   | some (gs, r2) => some (JVal.obj (dedupFields gs), r2)
                   | none => none) := rfl
          rw [hred, ← List.cons_append, ← hX, hkey]
          show some (JVal.obj (dedupFields ((k, v) :: fs)), rest)
              = some (JVal.obj ((k, v) :: fs), rest)
          rw [dedupFields_id hkf]
  termination_by v _ _ _ _ _ => sizeOf v
theorem rtItems : ∀ (x : JVal) (xs : List JVal) (fuel : Nat) (rest : List Char),
    wfItems (x :: xs) = true → (printItems (x :: xs)).length + 1 < fuel →
    parseItems fuel (printItems (x :: xs) ++ ']' :: rest) = some (x :: xs, rest)
  | x, [], fuel, rest, hw, hf => by
      cases fuel with
      | zero => omega
      | succ f =>
          have hwx : wfJ x = true := by
            rw [wfItems, Bool.and_eq_true] at hw
            exact hw.1
          have hfx : (printJ x).length < f := by
            simp only [printItems] at hf
            omega
          have hv := rtVal x f (']' :: rest) hwx hfx rfl
          have harg : printItems [x] ++ ']' :: rest = printJ x ++ ']' :: rest := by
            simp [printItems]
          rw [harg]
          have step : parseItems (f + 1) (printJ x ++ ']' :: rest)
              = (match parseJ f (printJ x ++ ']' :: rest) with
                 | none => none
                 | some (v, r) =>
                   match dropWs r with
                   | ',' :: r1 =>
                       (match parseItems f r1 with
                        | some (vs, r2) => some (v :: vs, r2)
                        | none => none)
                   | ']' :: r1 => some ([v], r1)
                   | _ => none) := rfl
          rw [step, hv]
          simp [dropWs, jsWs]
  | x, y :: ys, fuel, rest, hw, hf => by
      cases fuel with
      | zero => omega
      | succ f =>
          have hwx : wfJ x = true := by
            rw [wfItems, Bool.and_eq_true] at hw
            exact hw.1
          have hwt : wfItems (y :: ys) = true := by
            rw [wfItems, Bool.and_eq_true] at hw
            exact hw.2
          have hlen : printItems (x :: y :: ys) = printJ x ++ ',' :: printItems (y :: ys) := by
            simp [printItems]
          have hfx : (printJ x).length < f := by
            rw [hlen] at hf
            simp only [List.length_append, List.length_cons] at hf
            have hp : 1 ≤ (printItems (y :: ys)).length := by
              obtain ⟨c, t, hct, _, _⟩ := printItems_head y ys
              simp [hct]
            omega
          have hft : (printItems (y :: ys)).length + 1 < f := by
            rw [hlen] at hf
            simp only [List.length_append, List.length_cons] at hf
            have := printJ_length_pos x
            omega
          have hv := rtVal x f (',' :: (printItems (y :: ys) ++ ']' :: rest)) hwx hfx rfl
          have hkey := rtItems y ys f rest hwt hft
          have harg : printItems (x :: y :: ys) ++ ']' :: rest
              = printJ x ++ ',' :: (printItems (y :: ys) ++ ']' :: rest) := by
            rw [hlen]
            simp
          rw [harg]
          have step : parseItems (f + 1)
                (printJ x ++ ',' :: (printItems (y :: ys) ++ ']' :: rest))
              = (match parseJ f (printJ x ++ ',' :: (printItems (y :: ys) ++ ']' :: rest)) with
                 | none => none
                 | some (v, r) =>
                   match dropWs r with
                   | ',' :: r1 =>
                       (match parseItems f r1 with
                        | some (vs, r2) => some (v :: vs, r2)
                        | none => none)
                   | ']' :: r1 => some ([v], r1)
                   | _ => none) := rfl
          rw [step, hv]
          simp [dropWs, jsWs, hkey]
  termination_by x xs _ _ _ _ => sizeOf x + sizeOf xs
theorem rtFields : ∀ (kv : String × JVal) (fs : List (String × JVal)) (fuel : Nat)
      (rest : List Char),
    wfFields (kv :: fs) = true → (printFields (kv :: fs)).length + 1 < fuel →
    parseFields fuel (printFields (kv :: fs) ++ '\x7d' :: rest) = some (kv :: fs, rest)
  | (k, v), [], fuel, rest, hw, hf => by
      cases fuel with
      | zero => omega
      | succ f =>
          have hwv : wfJ v = true := by
            rw [wfFields, Bool.and_eq_true] at hw
            exact hw.1
          have hfv : (printJ v).length < f := by
            simp only [printFields, strChars, List.length_append, List.length_cons] at hf
            omega
          have hv := rtVal v f ('\x7d' :: rest) hwv hfv rfl
          have harg : printFields [(k, v)] ++ '\x7d' :: rest
              = '"' :: (k.toList.flatMap escSeq
                  ++ '"' :: (':' :: (printJ v ++ '\x7d' :: rest))) := by
            simp [printFields, strChars]
          rw [harg]
          have step : parseFields (f + 1) ('"' :: (k.toList.flatMap escSeq
                  ++ '"' :: (':' :: (printJ v ++ '\x7d' :: rest))))
              = (match scanStr (k.toList.flatMap escSeq
                    ++ '"' :: (':' :: (printJ v ++ '\x7d' :: rest))) with
                 | none => none
                 | some (kcs, r1) =>
                   match dropWs r1 with
                   | ':' :: r2 =>
                     (match parseJ f r2 with
                      | none => none
                      | some (w, r3) =>
                        match dropWs r3 with
                        | ',' :: r4 =>
                            (match parseFields f r4 with
                             | some (gs, r5) => some ((⟨kcs⟩, w) :: gs, r5)
                             | none => none)
                        | '\x7d' :: r4 => some ([(⟨kcs⟩, w)], r4)
                        | _ => none)
                   | _ => none) := rfl
          rw [step, scanStr_flat]
          simp only []
          have hred : dropWs (':' :: (printJ v ++ '\x7d' :: rest))
              = ':' :: (printJ v ++ '\x7d' :: rest) := rfl
          rw [hred]
          simp only []
          rw [hv]
          simp [dropWs, jsWs]
  | (k, v), g :: gs, fuel, rest, hw, hf => by
      cases fuel with
      | zero => omega
      | succ f =>
          have hwv : wfJ v = true := by
            rw [wfFields, Bool.and_eq_true] at hw
            exact hw.1
          have hwt : wfFields (g :: gs) = true := by
            rw [wfFields, Bool.and_eq_true] at hw
            exact hw.2
          have hlen : printFields ((k, v) :: g :: gs)
              = strChars k ++ ':' :: printJ v ++ ',' :: printFields (g :: gs) := by
            simp [printFields]
          have hfv : (printJ v).length < f := by
            rw [hlen] at hf
            simp only [strChars, List.length_append, List.length_cons] at hf
            omega
          have hft : (printFields (g :: gs)).length + 1 < f := by
            rw [hlen] at hf
            simp only [strChars, List.length_append, List.length_cons] at hf
            have := printJ_length_pos v
            omega
          have hv := rtVal v f (',' :: (printFields (g :: gs) ++ '\x7d' :: rest)) hwv hfv
            rfl
          have hkey := rtFields g gs f rest hwt hft
          have harg : printFields ((k, v) :: g :: gs) ++ '\x7d' :: rest
              = '"' :: (k.toList.flatMap escSeq ++ '"' :: (':' :: (printJ v
                  ++ ',' :: (printFields (g :: gs) ++ '\x7d' :: rest)))) := by
            rw [hlen]
            simp [strChars]
          rw [harg]
          have step : parseFields (f + 1) ('"' :: (k.toList.flatMap escSeq
                  ++ '"' :: (':' :: (printJ v
                    ++ ',' :: (printFields (g :: gs) ++ '\x7d' :: rest)))))
              = (match scanStr (k.toList.flatMap escSeq ++ '"' :: (':' :: (printJ v
                    ++ ',' :: (printFields (g :: gs) ++ '\x7d' :: rest)))) with
                 | none => none
                 | some (kcs, r1) =>
                   match dropWs r1 with
                   | ':' :: r2 =>
                     (match parseJ f r2 with
                      | none => none
                      | some (w, r3) =>
                        match dropWs r3 with
                        | ',' :: r4 =>
                            (match parseFields f r4 with
                             | some (gs2, r5) => some ((⟨kcs⟩, w) :: gs2, r5)
                             | none => none)
                        | '\x7d' :: r4 => some ([(⟨kcs⟩, w)], r4)
                        | _ => none)
                   | _ => none) := rfl
          rw [step, scanStr_flat]
          simp only []
          have hred : dropWs (':' :: (printJ v
              ++ ',' :: (printFields (g :: gs) ++ '\x7d' :: rest)))
              = ':' :: (printJ v ++ ',' :: (printFields (g :: gs) ++ '\x7d' :: rest)) := rfl
          rw [hred]
          simp only []
          rw [hv]
          simp [dropWs, jsWs, hkey]
  termination_by kv fs _ _ _ _ => sizeOf kv + sizeOf fs
end

/-- Parsing a rendered value recovers it exactly, for every well-formed
value (unique keys at every object level, which all parsed values have). -/
theorem jsonParse_serializeJ {v : JVal} (hw : wfJ v = true) :
    jsonParse (serializeJ v) = some v := by
  have h := rtVal v ((printJ v).length + 1) [] hw (by omega) rfl
  rw [List.append_nil] at h
  rw [jsonParse]
  have hlen : (serializeJ v).length = (printJ v).length := rfl
  have htl : (serializeJ v).toList = printJ v := rfl
  rw [hlen, htl, h]
  rfl

/-! ### Everything the parser builds is well-formed -/

theorem dedupFields_keysFresh (fs : List (String × JVal)) :
    keysFresh ((dedupFields fs).map Prod.fst) = true :=
  keysFresh_assignAll (by rfl)

theorem dedupFields_wfFields {fs : List (String × JVal)} (h : wfFields fs = true) :
    wfFields (dedupFields fs) = true :=
  wfFields_assignAll (by rfl) h

mutual
theorem parseJ_wf : ∀ (fuel : Nat) (cs : List Char) (v : JVal) (r : List Char),
    parseJ fuel cs = some (v, r) → wfJ v = true
  | 0, _, _, _, h => by simp [parseJ] at h
  | fuel + 1, cs, v, r, h => by
      simp only [parseJ] at h
      repeat' split at h
      all_goals
        first
        | (rw [Option.some.injEq, Prod.mk.injEq] at h
           obtain ⟨rfl, rfl⟩ := h
           first
           | rfl
           | (rw [wfJ]
              exact parseItems_wf _ _ _ _ (by assumption))
           | (rw [wfJ, Bool.and_eq_true]
              exact ⟨dedupFields_keysFresh _,
                dedupFields_wfFields (parseFields_wf _ _ _ _ (by assumption))⟩))
        | simp at h
theorem parseItems_wf : ∀ (fuel : Nat) (cs : List Char) (xs : List JVal) (r : List Char),
    parseItems fuel cs = some (xs, r) → wfItems xs = true
  | 0, _, _, _, h => by simp [parseItems] at h
  | fuel + 1, cs, xs, r, h => by
      simp only [parseItems] at h
      repeat' split at h
      all_goals
        first
        | (rw [Option.some.injEq, Prod.mk.injEq] at h
           obtain ⟨rfl, rfl⟩ := h
           rw [wfItems, Bool.and_eq_true]
           first
           | exact ⟨parseJ_wf _ _ _ _ (by assumption),
               parseItems_wf _ _ _ _ (by assumption)⟩
           | exact ⟨parseJ_wf _ _ _ _ (by assumption), rfl⟩)
        | simp at h
theorem parseFields_wf : ∀ (fuel : Nat) (cs : List Char) (fs : List (String × JVal))
      (r : List Char),
    parseFields fuel cs = some (fs, r) → wfFields fs = true
  | 0, _, _, _, h => by simp [parseFields] at h
  | fuel + 1, cs, fs, r, h => by
      simp only [parseFields] at h
      repeat' split at h
      all_goals
        first
        | (rw [Option.some.injEq, Prod.mk.injEq] at h
           obtain ⟨rfl, rfl⟩ := h
           rw [wfFields, Bool.and_eq_true]
           first
           | exact ⟨parseJ_wf _ _ _ _ (by assumption),
               parseFields_wf _ _ _ _ (by assumption)⟩
           | exact ⟨parseJ_wf _ _ _ _ (by assumption), rfl⟩)
        | simp at h
end

theorem jsonParse_wf {s : String} {v : JVal} (h : jsonParse s = some v) :
    wfJ v = true := by
  rw [jsonParse] at h
  split at h
  · split at h
    · rw [Option.some.injEq] at h
      subst h
      exact parseJ_wf _ _ _ _ (by assumption)
    · simp at h
  · simp at h

/-! ### Replacing a path's value: lookup, frame, and well-formedness -/

theorem getAt_nil (v : JVal) : getAt v [] = some v := by
  cases v <;> rfl

theorem wfItems_set {xs : List JVal} (h : wfItems xs = true) {w : JVal}
    (hw : wfJ w = true) (i : Nat) : wfItems (xs.set i w) = true := by
  induction xs generalizing i with
  | nil => rfl
  | cons y ys ih =>
      rw [wfItems, Bool.and_eq_true] at h
      cases i with
      | zero => simp only [List.set, wfItems, Bool.and_eq_true]; exact ⟨hw, h.2⟩
      | succ j => simp only [List.set, wfItems, Bool.and_eq_true]; exact ⟨h.1, ih h.2 j⟩

/-- After a successful replacement, the path holds the new value. -/
theorem setAtPath_get : ∀ (p : List Seg) (d nv d' : JVal),
    setAtPath d p nv = .ok d' → getAt d' p = some nv := by
  intro p
  induction p with
  | nil =>
      intro d nv d' h
      simp only [setAtPath, Except.ok.injEq] at h
      subst h
      exact getAt_nil _
  | cons s p ih =>
      intro d nv d' h
      cases s with
      | key k =>
          cases d with
          | obj fs =>
              rw [setAtPath] at h
              split at h
              · rename_i old hget
                cases hset : setAtPath old p nv with
                | error msg => rw [hset] at h; simp [Except.map] at h
                | ok w =>
                    rw [hset] at h
                    simp only [Except.map, Except.ok.injEq] at h
                    subst h
                    rw [getAt, assocGet_set_self]
                    exact ih old nv w hset
              · split at h
                · rename_i hget hp
                  rw [Except.ok.injEq] at h
                  subst h
                  rw [List.isEmpty_iff] at hp
                  subst hp
                  rw [getAt, assocGet_set_self]
                  exact getAt_nil nv
                · simp at h
          | null => simp [setAtPath] at h
          | bool b => simp [setAtPath] at h
          | num m e => simp [setAtPath] at h
          | str s2 => simp [setAtPath] at h
          | arr xs => simp [setAtPath] at h
      | idx i =>
          cases d with
          | arr xs =>
              rw [setAtPath] at h
              split at h
              · rename_i old hget
                cases hset : setAtPath old p nv with
                | error msg => rw [hset] at h; simp [Except.map] at h
                | ok w =>
                    rw [hset] at h
                    simp only [Except.map, Except.ok.injEq] at h
                    subst h
                    have hlt : i < xs.length := by
                      by_contra hge
                      rw [List.get?_eq_none.mpr (by omega)] at hget
                      exact Option.noConfusion hget
                    rw [getAt, List.get?_set_eq_of_lt _ hlt]
                    exact ih old nv w hset
              · simp at h
          | null => simp [setAtPath] at h
          | bool b => simp [setAtPath] at h
          | num m e => simp [setAtPath] at h
          | str s2 => simp [setAtPath] at h
          | obj fs => simp [setAtPath] at h

theorem getAt_obj_key (fs : List (String × JVal)) (k : String) (q : List Seg) :
    getAt (.obj fs) (.key k :: q)
      = (match assocGet fs k with
         | some w => getAt w q
         | none => none) := rfl

theorem getAt_arr_idx (xs : List JVal) (i : Nat) (q : List Seg) :
    getAt (.arr xs) (.idx i :: q)
      = (match xs.get? i with
         | some w => getAt w q
         | none => none) := rfl

/-- Replacing the value at `p` leaves every path that neither extends `p`
nor is extended by it untouched. -/
theorem setAtPath_frame : ∀ (p : List Seg) (d nv d' : JVal),
    setAtPath d p nv = .ok d' →
    ∀ q : List Seg, ¬ p <+: q → ¬ q <+: p → getAt d' q = getAt d q := by
  intro p
  induction p with
  | nil =>
      intro d nv d' _ q hpq _
      exact absurd (List.nil_prefix) hpq
  | cons s p ih =>
      intro d nv d' h q hpq hqp
      cases q with
      | nil => exact absurd (List.nil_prefix) hqp
      | cons t q' =>
          cases s with
          | key k =>
              cases d with
              | obj fs =>
                  rw [setAtPath] at h
                  split at h
                  · rename_i old hget
                    cases hset : setAtPath old p nv with
                    | error msg => rw [hset] at h; simp [Except.map] at h
                    | ok w =>
                        rw [hset] at h
                        simp only [Except.map, Except.ok.injEq] at h
                        subst h
                        cases t with
                        | key k2 =>
                            by_cases hk : k2 = k
                            · subst hk
                              have hpq' : ¬ p <+: q' := fun hp => hpq (by
                                rw [List.cons_prefix_cons]
                                exact ⟨rfl, hp⟩)
                              have hqp' : ¬ q' <+: p := fun hp => hqp (by
                                rw [List.cons_prefix_cons]
                                exact ⟨rfl, hp⟩)
                              rw [getAt_obj_key, getAt_obj_key, assocGet_set_self, hget]
                              exact ih old nv w hset q' hpq' hqp'
                            · rw [getAt_obj_key, getAt_obj_key,
                                assocGet_set_other fs k2 k w (fun he => hk he.symm)]
                        | idx n => rfl
                  · split at h
                    · rename_i hget hp
                      rw [Except.ok.injEq] at h
                      subst h
                      rw [List.isEmpty_iff] at hp
                      subst hp
                      cases t with
                      | key k2 =>
                          by_cases hk : k2 = k
                          · subst hk
                            exact absurd (by
                              rw [List.cons_prefix_cons]
                              exact ⟨rfl, List.nil_prefix⟩) hpq
                          · rw [getAt_obj_key, getAt_obj_key,
                              assocGet_set_other fs k2 k nv (fun he => hk he.symm)]
                      | idx n => rfl
                    · simp at h
              | null => simp [setAtPath] at h
              | bool b => simp [setAtPath] at h
              | num m e => simp [setAtPath] at h
              | str s2 => simp [setAtPath] at h
              | arr xs => simp [setAtPath] at h
          | idx i =>
              cases d with
              | arr xs =>
                  rw [setAtPath] at h
                  split at h
                  · rename_i old hget
                    cases hset : setAtPath old p nv with
                    | error msg => rw [hset] at h; simp [Except.map] at h
                    | ok w =>
                        rw [hset] at h
                        simp only [Except.map, Except.ok.injEq] at h
                        subst h
                        cases t with
                        | idx j =>
                            by_cases hj : j = i
                            · subst hj
                              have hlt : j < xs.length := by
                                by_contra hge
                                rw [List.get?_eq_none.mpr (by omega)] at hget
                                exact Option.noConfusion hget
                              have hpq' : ¬ p <+: q' := fun hp => hpq (by
                                rw [List.cons_prefix_cons]
                                exact ⟨rfl, hp⟩)
                              have hqp' : ¬ q' <+: p := fun hp => hqp (by
                                rw [List.cons_prefix_cons]
                                exact ⟨rfl, hp⟩)
                              rw [getAt_arr_idx, getAt_arr_idx,
                                List.get?_set_eq_of_lt _ hlt, hget]
                              exact ih old nv w hset q' hpq' hqp'
                            · rw [getAt_arr_idx, getAt_arr_idx,
                                List.get?_set_ne _ _ (fun he => hj he.symm)]
                        | key k2 => rfl
                  · simp at h
              | null => simp [setAtPath] at h
              | bool b => simp [setAtPath] at h
              | num m e => simp [setAtPath] at h
              | str s2 => simp [setAtPath] at h
              | obj fs => simp [setAtPath] at h

/-- A successful replacement of a well-formed value inside a well-formed
document stays well-formed. -/
theorem setAtPath_wf : ∀ (p : List Seg) (d nv d' : JVal),
    setAtPath d p nv = .ok d' → wfJ d = true → wfJ nv = true → wfJ d' = true := by
  intro p
  induction p with
  | nil =>
      intro d nv d' h _ hnv
      simp only [setAtPath, Except.ok.injEq] at h
      subst h
      exact hnv
  | cons s p ih =>
      intro d nv d' h hd hnv
      cases s with
      | key k =>
          cases d with
          | obj fs =>
              rw [wfJ, Bool.and_eq_true] at hd
              rw [setAtPath] at h
              split at h
              · rename_i old hget
                cases hset : setAtPath old p nv with
                | error msg => rw [hset] at h; simp [Except.map] at h
                | ok w =>
                    rw [hset] at h
                    simp only [Except.map, Except.ok.injEq] at h
                    subst h
                    have hw : wfJ w = true :=
                      ih old nv w hset (wfFields_get hd.2 hget) hnv
                    rw [wfJ, Bool.and_eq_true]
                    exact ⟨keysFresh_set hd.1 k w, wfFields_set hd.2 hw⟩
              · split at h
                · rw [Except.ok.injEq] at h
                  subst h
                  rw [wfJ, Bool.and_eq_true]
                  exact ⟨keysFresh_set hd.1 k nv, wfFields_set hd.2 hnv⟩
                · simp at h
          | null => simp [setAtPath] at h
          | bool b => simp [setAtPath] at h
          | num m e => simp [setAtPath] at h
          | str s2 => simp [setAtPath] at h
          | arr xs => simp [setAtPath] at h
      | idx i =>
          cases d with
          | arr xs =>
              rw [wfJ] at hd
              rw [setAtPath] at h
              split at h
              · rename_i old hget
                cases hset : setAtPath old p nv with
                | error msg => rw [hset] at h; simp [Except.map] at h
                | ok w =>
                    rw [hset] at h
                    simp only [Except.map, Except.ok.injEq] at h
                    subst h
                    have hw : wfJ w = true :=
                      ih old nv w hset (wfItems_mem hd (List.get?_mem hget)) hnv
                    rw [wfJ]
                    exact wfItems_set hd hw i
              · simp at h
          | null => simp [setAtPath] at h
          | bool b => simp [setAtPath] at h
          | num m e => simp [setAtPath] at h
          | str s2 => simp [setAtPath] at h
          | obj fs => simp [setAtPath] at h

/-! ### Well-formedness of values reached by JS indexing -/

theorem jsIndex_wf : ∀ (v : JVal) (s : Seg) (w : Option JVal),
    jsIndex (some v) s = .ok w → wfJ v = true → ∀ u, w = some u → wfJ u = true := by
  intro v s w h hv u hu
  subst hu
  cases v with
  | null => simp [jsIndex] at h
  | bool b => simp [jsIndex] at h
  | num m e => simp [jsIndex] at h
  | str s2 =>
      cases s with
      | idx n =>
          rw [jsIndex, Except.ok.injEq] at h
          rcases hg : s2.toList.get? n with _ | c
          · rw [hg] at h
            exact Option.noConfusion h
          · rw [hg] at h
            simp only [Option.map_some', Option.some.injEq] at h
            rw [← h]
            rfl
      | key k =>
          rw [jsIndex, Except.ok.injEq] at h
          split at h
          · rw [Option.some.injEq] at h
            rw [← h]
            rfl
          · split at h
            · rename_i n hn
              rcases hg : s2.toList.get? n with _ | c
              · rw [hg] at h
                exact Option.noConfusion h
              · rw [hg] at h
                simp only [Option.map_some', Option.some.injEq] at h
                rw [← h]
                rfl
            · exact Option.noConfusion h
  | arr xs =>
      rw [wfJ] at hv
      cases s with
      | idx n =>
          rw [jsIndex, Except.ok.injEq] at h
          exact wfItems_mem hv (List.get?_mem h)
      | key k =>
          rw [jsIndex, Except.ok.injEq] at h
          split at h
          · rw [Option.some.injEq] at h
            rw [← h]
            rfl
          · split at h
            · rename_i n hn
              exact wfItems_mem hv (List.get?_mem h)
            · simp at h
  | obj fs =>
      rw [wfJ, Bool.and_eq_true] at hv
      cases s with
      | key k =>
          rw [jsIndex, Except.ok.injEq] at h
          exact wfFields_get hv.2 h
      | idx n =>
          rw [jsIndex, Except.ok.injEq] at h
          exact wfFields_get hv.2 h

theorem traverseSegs_wf : ∀ (p : List Seg) (cur w : Option JVal),
    traverseSegs cur p = .ok w → (∀ u, cur = some u → wfJ u = true) →
    ∀ u, w = some u → wfJ u = true := by
  intro p
  induction p with
  | nil =>
      intro cur w h hc
      rw [traverseSegs, Except.ok.injEq] at h
      subst h
      exact hc
  | cons s p ih =>
      intro cur w h hc
      rw [traverseSegs] at h
      split at h
      · rename_i next hnext
        refine ih next w h ?_
        intro u hu
        cases cur with
        | none => simp [jsIndex] at hnext
        | some v => exact jsIndex_wf v s next hnext (hc v rfl) u hu
      · exact absurd h (by simp)

/-- Whatever `getValueAtPath` returns is a well-formed value. -/
theorem getValueAtPath_wf {json : String} {p : List Seg} {u : JVal}
    (h : getValueAtPath json p = some u) : wfJ u = true := by
  rw [getValueAtPath] at h
  split at h
  · rename_i w hw
    exact traverseSegs_wf p (jsonParse json) w hw (fun x hx => jsonParse_wf hx) u h
  · rw [Option.some.injEq] at h
    rw [← h]
    rfl

/-- Whatever the edit coercion accepts is a well-formed value. -/
theorem coerceEdited_wf {raw : String} {v : JVal} (h : coerceEdited raw = .ok v) :
    wfJ v = true := by
  rw [coerceEdited] at h
  split at h
  · rename_i w hw
    rw [Except.ok.injEq] at h
    subst h
    exact jsonParse_wf hw
  · split at h
    · split at h
      · rename_i w hw
        rw [Except.ok.injEq] at h
        subst h
        exact jsonParse_wf hw
      · simp at h
    · rw [Except.ok.injEq] at h
      rw [← h]
      rfl

/-! ### The object `normalizeNodeData` builds, characterized -/

theorem find?_append_cases {α : Type} (p : α → Bool) :
    ∀ l1 l2 : List α,
      (l1 ++ l2).find? p
        = (match l1.find? p with
           | some a => some a
           | none => l2.find? p) := by
  intro l1 l2
  induction l1 with
  | nil => simp
  | cons a t ih =>
      by_cases hp : p a = true
      · simp [List.find?_cons_of_pos _ hp, hp]
      · rw [List.cons_append, List.find?_cons_of_neg _ (by simpa using hp),
          List.find?_cons_of_neg _ (by simpa using hp), ih]

/-- A kept row's key matches `some k` exactly when the assigned key does. -/
theorem rowKeep_key_eq {r : NodeRow} (hk : rowKeep r = true) (k : String) :
    (r.key == some k) = true ↔ r.key.getD "" = k := by
  rw [rowKeep, Bool.and_eq_true, Bool.and_eq_true] at hk
  rcases r with ⟨rk, rv, rt⟩
  cases rk with
  | none => simp [keyTruthy] at hk
  | some s => simp

/-- Looking a key up in the object `rowsObj` builds returns the value of
the last surviving row carrying that key. -/
theorem rowsObj_get (rows : List NodeRow) (k : String) :
    assocGet (rowsObj rows) k = lastRowVal rows k := by
  suffices h : ∀ base : List (String × RowVal),
      assocGet (rows.foldl
          (fun o r => if rowKeep r then assocSet o (r.key.getD "") r.value else o) base) k
        = (match ((rows.filter rowKeep).reverse.find? fun r => r.key == some k) with
           | some r => some r.value
           | none => assocGet base k) by
    have := h []
    rw [rowsObj, lastRowVal]
    rw [this]
    cases hf : (rows.filter rowKeep).reverse.find? fun r => r.key == some k <;>
      simp [assocGet, Option.map]
  induction rows with
  | nil => intro base; simp
  | cons r t ih =>
      intro base
      by_cases hk : rowKeep r = true
      · rw [List.foldl_cons, if_pos hk, ih]
        rw [List.filter_cons_of_pos hk, List.reverse_cons,
          find?_append_cases (fun r => r.key == some k) (t.filter rowKeep).reverse [r]]
        cases hf : (t.filter rowKeep).reverse.find? fun r => r.key == some k with
        | some r2 => rfl
        | none =>
            by_cases hkk : (r.key == some k) = true
            · have hgd : r.key.getD "" = k := (rowKeep_key_eq hk k).mp hkk
              rw [hgd, assocGet_set_self]
              simp [List.find?, hkk]
            · have hgd : ¬ r.key.getD "" = k := fun he => hkk ((rowKeep_key_eq hk k).mpr he)
              rw [assocGet_set_other _ _ _ _ hgd]
              simp [List.find?, hkk]
      · rw [List.foldl_cons, if_neg hk, ih,
          List.filter_cons_of_neg (by simpa using hk)]

/-! ### The traversal loop is a monadic fold -/

theorem traverseSegs_foldlM :
    ∀ (p : List Seg) (cur : Option JVal),
      traverseSegs cur p = List.foldlM jsIndex cur p := by
  intro p
  induction p with
  | nil => intro cur; rfl
  | cons s p ih =>
      intro cur
      rw [traverseSegs, List.foldlM_cons]
      cases h : jsIndex cur s with
      | ok next => exact ih next
      | error e => rfl

/-! ### Unfolding `handleSave` -/

/-- What a successful core run means: the edit coerced, the original parsed,
the (merged) value replaced the path's value, and the result was rendered. -/
theorem handleSaveCore_ok {st : AppState} {nd : GraphNode} {newJson nid : String}
    (hsel : st.selectedNode = some nd)
    (hok : handleSaveCore st = some (.ok (newJson, nid))) :
    ∃ ev d d', coerceEdited st.value = .ok ev
      ∧ jsonParse st.jsonStore = some d
      ∧ setAtPath d (nd.path.getD [])
          (mergeForSave (getValueAtPath st.jsonStore (nd.path.getD [])) ev) = .ok d'
      ∧ newJson = serializeJ d' ∧ nid = nd.id := by
  rw [handleSaveCore, hsel, Option.some.injEq] at hok
  split at hok
  · exact absurd hok (by simp)
  · rename_i ev hev
    split at hok
    · exact absurd hok (by simp)
    · rename_i nj hma
      rw [Except.ok.injEq, Prod.mk.injEq] at hok
      obtain ⟨rfl, rfl⟩ := hok
      rw [modifyApply] at hma
      split at hma
      · exact absurd hma (by simp)
      · rename_i d hd
        cases hset : setAtPath d (nd.path.getD [])
            (mergeForSave (getValueAtPath st.jsonStore (nd.path.getD [])) ev) with
        | error msg => rw [hset] at hma; simp [Except.map] at hma
        | ok d' =>
            rw [hset] at hma
            simp only [Except.map, Except.ok.injEq] at hma
            exact ⟨ev, d, d', hev, hd, hset, hma.symm, rfl⟩

theorem handleSave_ok {rebuild : String → List GraphNode} {st : AppState}
    {newJson nid : String} (hok : handleSaveCore st = some (.ok (newJson, nid))) :
    handleSave rebuild st =
      { st with
        fileContents := newJson
        fileHasChanges := true
        jsonStore := newJson
        graphSource := newJson
        graphNodes := rebuild newJson
        pendingReselect := st.pendingReselect ++ [(reselectDelayMs, nid)]
        isEditing := false
        error := none } := by
  rw [handleSave, hok]

theorem handleSave_err {rebuild : String → List GraphNode} {st : AppState}
    {msg : String} (hfail : handleSaveCore st = some (.error msg)) :
    handleSave rebuild st = { st with error := some msg } := by
  rw [handleSave, hfail]

/-! ### The claims -/

/-- C1: when the original value at the node's path and the edited text both
denote non-null, non-array objects, the value written to the document at
the path is the original object's fields overlaid by the edited object's
fields — the edited fields win, and every field of the original absent from
the edit is preserved with its original value. -/
theorem C1_merge_preserves_fields (st : AppState) (nd : GraphNode)
    (ofs efs : List (String × JVal)) (newJson nid : String)
    (hsel : st.selectedNode = some nd)
    (horig : getValueAtPath st.jsonStore (nd.path.getD []) = some (.obj ofs))
    (hedit : coerceEdited st.value = .ok (.obj efs))
    (hok : handleSaveCore st = some (.ok (newJson, nid))) :
    ∃ d', jsonParse newJson = some d'
      ∧ getAt d' (nd.path.getD []) = some (.obj (assignAll ofs efs))
      ∧ (∀ k v, assocGet efs k = some v → assocGet (assignAll ofs efs) k = some v)
      ∧ (∀ k, assocGet efs k = none → assocGet (assignAll ofs efs) k = assocGet ofs k) := by
  obtain ⟨ev, d, d', hev, hd, hset, hnew, hnid⟩ := handleSaveCore_ok hsel hok
  have hev2 : ev = .obj efs := by
    rw [hev, Except.ok.injEq] at hedit
    exact hedit
  subst hev2
  rw [horig] at hset
  have hmerge : mergeForSave (some (.obj ofs)) (.obj efs) = .obj (assignAll ofs efs) := rfl
  rw [hmerge] at hset
  have hwfo : wfJ (.obj ofs) = true := getValueAtPath_wf horig
  have hwfe : wfJ (.obj efs) = true := coerceEdited_wf hedit
  have hwfd : wfJ d = true := jsonParse_wf hd
  have hwfm : wfJ (.obj (assignAll ofs efs)) = true := wfJ_assignAll hwfo hwfe
  have hwfd' : wfJ d' = true := setAtPath_wf _ _ _ _ hset hwfd hwfm
  refine ⟨d', ?_, setAtPath_get _ _ _ _ hset, ?_, ?_⟩
  · rw [hnew]
    exact jsonParse_serializeJ hwfd'
  · intro k v hv
    have hkf : keysFresh (efs.map Prod.fst) = true := by
      rw [wfJ, Bool.and_eq_true] at hwfe
      exact hwfe.1
    exact assignAll_get_present efs ofs k v hkf hv
  · intro k hk
    exact assignAll_get_absent efs ofs k hk

/-- C2: a successful save pushes the same patched text into all three
stores: the file store (with `hasChanges` set), the JSON store, and the
graph store, whose nodes are rebuilt from that same text. -/
theorem C2_stores_updated (rebuild : String → List GraphNode) (st : AppState)
    (newJson nid : String) (hok : handleSaveCore st = some (.ok (newJson, nid))) :
    (handleSave rebuild st).fileContents = newJson
      ∧ (handleSave rebuild st).fileHasChanges = true
      ∧ (handleSave rebuild st).jsonStore = newJson
      ∧ (handleSave rebuild st).graphSource = newJson
      ∧ (handleSave rebuild st).graphNodes = rebuild newJson := by
  rw [handleSave_ok hok]
  exact ⟨rfl, rfl, rfl, rfl, rfl⟩

/-- C3, counterexample: the input "." fails the initial `JSON.parse`, falls
into the numeric-looking branch of the coercion, and the inner `JSON.parse`
throws — so the coercion does not succeed on every input that fails the
initial parse. -/
theorem C3_counterexample :
    jsonParse "." = none
      ∧ coerceEdited "." = .error "Unexpected token in JSON" :=
  ⟨rfl, rfl⟩

/-- C3, amended: the coercion uses the parsed value when the text parses;
otherwise, when the trimmed text is "null"/"true"/"false" or consists only
of `-`, digits and `.`, it re-parses the trimmed text as a JSON literal —
which itself throws when that text is not valid JSON (e.g. ".") — and in
every remaining case it succeeds with the trimmed text stripped of one
leading and one trailing quote. -/
theorem C3_coercion_branches (raw : String) :
    (∀ v, jsonParse raw = some v → coerceEdited raw = .ok v)
    ∧ (jsonParse raw = none →
        (numericish (jsTrim raw) || jsTrim raw = "null" || jsTrim raw = "true"
          || jsTrim raw = "false") = true →
        coerceEdited raw
          = (match jsonParse (jsTrim raw) with
             | some v => Except.ok v
             | none => Except.error "Unexpected token in JSON"))
    ∧ (jsonParse raw = none →
        (numericish (jsTrim raw) || jsTrim raw = "null" || jsTrim raw = "true"
          || jsTrim raw = "false") = false →
        coerceEdited raw = .ok (.str (stripOuterQuotes (jsTrim raw)))) := by
  refine ⟨?_, ?_, ?_⟩
  · intro v hv
    rw [coerceEdited, hv]
  · intro hn hb
    rw [coerceEdited, hn, if_pos hb]
  · intro hn hb
    rw [coerceEdited, hn, if_neg (by simp [hb])]

/-- C4: the patched document is the original with only the value at the
node's path replaced — every path that neither extends the node's path nor
is a prefix of it reads the same value in the old and new documents. -/
theorem C4_patch_frame (original newJson : String) (path : List Seg) (v : JVal)
    (hwfv : wfJ v = true) (hm : modifyApply original path v = .ok newJson) :
    ∃ d d', jsonParse original = some d ∧ jsonParse newJson = some d'
      ∧ getAt d' path = some v
      ∧ ∀ q : List Seg, ¬ path <+: q → ¬ q <+: path → getAt d' q = getAt d q := by
  rw [modifyApply] at hm
  split at hm
  · exact absurd hm (by simp)
  · rename_i d hd
    cases hset : setAtPath d path v with
    | error msg => rw [hset] at hm; simp [Except.map] at hm
    | ok d' =>
        rw [hset] at hm
        simp only [Except.map, Except.ok.injEq] at hm
        have hwfd' := setAtPath_wf _ _ _ _ hset (jsonParse_wf hd) hwfv
        refine ⟨d, d', hd, ?_, setAtPath_get _ _ _ _ hset, setAtPath_frame _ _ _ _ hset⟩
        rw [← hm]
        exact jsonParse_serializeJ hwfd'

/-- C5: `normalizeNodeData` returns "\x7b\x7d" for a missing or empty row
list, the bare value string for a single keyless row, and otherwise the
two-space-indented serialization of the object assembling exactly the rows
whose type is neither "array" nor "object" and whose key is truthy — each
such key mapped to the value of its last such row. -/
theorem C5_normalizeNodeData :
    normalizeNodeData none = "\x7b\x7d"
    ∧ normalizeNodeData (some []) = "\x7b\x7d"
    ∧ (∀ r : NodeRow, keyTruthy r.key = false →
        normalizeNodeData (some [r]) = rowValText r.value)
    ∧ (∀ (r : NodeRow) (rest : List NodeRow), (rest = [] → keyTruthy r.key = true) →
        normalizeNodeData (some (r :: rest)) = stringify2 (rowsObj (r :: rest)))
    ∧ (∀ rows k, assocGet (rowsObj rows) k = lastRowVal rows k) := by
  refine ⟨rfl, rfl, ?_, ?_, rowsObj_get⟩
  · intro r hk
    rw [normalizeNodeData, if_neg (by simp [hk])]
  · intro r rest hcond
    cases rest with
    | nil => rw [normalizeNodeData, if_pos (hcond rfl)]
    | cons r2 t => rfl

/-- C6: `jsonPathToString` yields "$" for a missing or empty path, and
otherwise wraps the segments in `$[` … `]` joined by `][`, numbers bare and
strings double-quoted (e.g. the path ["customer"] prints $["customer"]). -/
theorem C6_jsonPathToString :
    jsonPathToString none = "$"
    ∧ jsonPathToString (some []) = "$"
    ∧ (∀ (s : Seg) (segs : List Seg),
        jsonPathToString (some (s :: segs))
          = "$[" ++ String.intercalate "][" ((s :: segs).map segText) ++ "]")
    ∧ (∀ n : Nat, segText (.idx n) = natStr n)
    ∧ (∀ k : String, segText (.key k) = "\"" ++ k ++ "\"")
    ∧ jsonPathToString (some [.key "customer"]) = "$[\"customer\"]" :=
  ⟨rfl, rfl, fun _ _ => rfl, fun _ => rfl, fun _ => rfl, rfl⟩

/-- C7: a successful save schedules exactly one 50 ms re-selection for the
saved node's id, and firing it selects the node with that id from the
rebuilt node list when one exists, leaving the state unchanged otherwise. -/
theorem C7_reselect (rebuild : String → List GraphNode) (st : AppState)
    (newJson nid : String) (hok : handleSaveCore st = some (.ok (newJson, nid))) :
    ((handleSave rebuild st).pendingReselect
        = st.pendingReselect ++ [(reselectDelayMs, nid)] ∧ reselectDelayMs = 50)
    ∧ (∀ n, (handleSave rebuild st).graphNodes.find? (fun m => m.id == nid) = some n →
        (fireReselect nid (handleSave rebuild st)).selectedNode = some n)
    ∧ ((handleSave rebuild st).graphNodes.find? (fun m => m.id == nid) = none →
        fireReselect nid (handleSave rebuild st) = handleSave rebuild st) := by
  refine ⟨⟨?_, rfl⟩, ?_, ?_⟩
  · rw [handleSave_ok hok]
  · intro n hn
    rw [fireReselect, hn]
  · intro hn
    rw [fireReselect, hn]

/-- C8: `getValueAtPath` is total by construction; it returns the value the
step-by-step JS indexing fold reaches, and `null` exactly when a traversal
step throws (indexing into `null`/`undefined`). -/
theorem C8_getValueAtPath_total (json : String) (path : List Seg) :
    getValueAtPath json path
      = (match List.foldlM jsIndex (jsonParse json) path with
         | .ok cur => cur
         | .error _ => some JVal.null)
    ∧ (∀ w, traverseSegs (jsonParse json) path = .ok w → getValueAtPath json path = w)
    ∧ (traverseSegs (jsonParse json) path = .error () →
        getValueAtPath json path = some .null) := by
  refine ⟨?_, ?_, ?_⟩
  · rw [getValueAtPath, traverseSegs_foldlM]
  · intro w hw
    rw [getValueAtPath, hw]
  · intro hw
    rw [getValueAtPath, hw]

/-- C9: when the coercion or the patch computation throws, save only
records the error message: the state is otherwise untouched, so the
component stays in edit mode with the edited text, and no store changes. -/
theorem C9_error_atomicity (rebuild : String → List GraphNode) (st : AppState)
    (msg : String) (hfail : handleSaveCore st = some (.error msg)) :
    handleSave rebuild st = { st with error := some msg }
    ∧ preservesStores st (handleSave rebuild st)
    ∧ (handleSave rebuild st).isEditing = st.isEditing
    ∧ (handleSave rebuild st).value = st.value
    ∧ (handleSave rebuild st).error = some msg := by
  have h := @handleSave_err rebuild st msg hfail
  rw [h]
  exact ⟨rfl, ⟨rfl, rfl, rfl, rfl, rfl⟩, rfl, rfl, rfl⟩

/-- C10: Edit, Cancel, typing in the textarea, the open/close effect, and a
save with no selected node never touch the file store, the JSON store or
the graph; Cancel additionally restores the selected node's normalized text
and clears the error. -/
theorem C10_frame (st : AppState) (rebuild : String → List GraphNode) (s : String) :
    preservesStores st (handleEdit st)
    ∧ preservesStores st (handleCancel st)
    ∧ preservesStores st (modalEffect st)
    ∧ preservesStores st (setEditValue s st)
    ∧ (st.selectedNode = none → handleSave rebuild st = st)
    ∧ (handleCancel st).value = normalizeNodeData (some (nodeText st))
    ∧ (handleCancel st).isEditing = false
    ∧ (handleCancel st).error = none := by
  refine ⟨⟨rfl, rfl, rfl, rfl, rfl⟩, ⟨rfl, rfl, rfl, rfl, rfl⟩,
    ⟨rfl, rfl, rfl, rfl, rfl⟩, ⟨rfl, rfl, rfl, rfl, rfl⟩, ?_, rfl, rfl, rfl⟩
  intro hn
  rw [handleSave, handleSaveCore, hn]

/-! ### Concrete witnesses -/

theorem C1_witness :
    ∃ d', jsonParse (serializeJ (JVal.obj [("a",
          JVal.obj [("x", JVal.num 9 0), ("y", JVal.num 2 0)])])) = some d'
      ∧ getAt d' [Seg.key "a"]
          = some (.obj (assignAll [("x", JVal.num 1 0), ("y", JVal.num 2 0)]
              [("x", JVal.num 9 0)]))
      ∧ (∀ k v, assocGet [("x", JVal.num 9 0)] k = some v →
          assocGet (assignAll [("x", JVal.num 1 0), ("y", JVal.num 2 0)]
            [("x", JVal.num 9 0)]) k = some v)
      ∧ (∀ k, assocGet [("x", JVal.num 9 0)] k = none →
          assocGet (assignAll [("x", JVal.num 1 0), ("y", JVal.num 2 0)]
              [("x", JVal.num 9 0)]) k
            = assocGet [("x", JVal.num 1 0), ("y", JVal.num 2 0)] k) :=
  C1_merge_preserves_fields
    { fileContents := "\x7b\"a\":\x7b\"x\":1,\"y\":2\x7d\x7d"
      fileHasChanges := false
      jsonStore := "\x7b\"a\":\x7b\"x\":1,\"y\":2\x7d\x7d"
      graphSource := "\x7b\"a\":\x7b\"x\":1,\"y\":2\x7d\x7d"
      graphNodes := []
      selectedNode := some { id := "n1", path := some [Seg.key "a"], text := [] }
      isEditing := true
      value := "\x7b\"x\":9\x7d"
      error := none
      pendingReselect := [] }
    { id := "n1", path := some [Seg.key "a"], text := [] }
    [("x", JVal.num 1 0), ("y", JVal.num 2 0)] [("x", JVal.num 9 0)]
    (serializeJ (JVal.obj [("a", JVal.obj [("x", JVal.num 9 0), ("y", JVal.num 2 0)])]))
    "n1" (by rfl) (by rfl) (by rfl) (by rfl)

theorem C2_witness :
    (handleSave (fun _ => [])
        { fileContents := "\x7b\"a\":\x7b\"x\":1,\"y\":2\x7d\x7d"
          fileHasChanges := false
          jsonStore := "\x7b\"a\":\x7b\"x\":1,\"y\":2\x7d\x7d"
          graphSource := "\x7b\"a\":\x7b\"x\":1,\"y\":2\x7d\x7d"
          graphNodes := []
          selectedNode := some { id := "n1", path := some [Seg.key "a"], text := [] }
          isEditing := true
          value := "\x7b\"x\":9\x7d"
          error := none
          pendingReselect := [] }).jsonStore
      = serializeJ (JVal.obj [("a",
          JVal.obj [("x", JVal.num 9 0), ("y", JVal.num 2 0)])]) :=
  (C2_stores_updated (fun _ => [])
    { fileContents := "\x7b\"a\":\x7b\"x\":1,\"y\":2\x7d\x7d"
      fileHasChanges := false
      jsonStore := "\x7b\"a\":\x7b\"x\":1,\"y\":2\x7d\x7d"
      graphSource := "\x7b\"a\":\x7b\"x\":1,\"y\":2\x7d\x7d"
      graphNodes := []
      selectedNode := some { id := "n1", path := some [Seg.key "a"], text := [] }
      isEditing := true
      value := "\x7b\"x\":9\x7d"
      error := none
      pendingReselect := [] }
    (serializeJ (JVal.obj [("a", JVal.obj [("x", JVal.num 9 0), ("y", JVal.num 2 0)])]))
    "n1" (by rfl)).2.2.1

theorem C3_witness :
    jsonParse "hello" = none
    ∧ coerceEdited "hello" = .ok (.str (stripOuterQuotes (jsTrim "hello"))) :=
  ⟨rfl, (C3_coercion_branches "hello").2.2 rfl rfl⟩

theorem C4_witness :
    ∃ d d', jsonParse "\x7b\"a\":1,\"b\":2\x7d" = some d
      ∧ jsonParse (serializeJ (JVal.obj [("a", JVal.num 5 0), ("b", JVal.num 2 0)]))
          = some d'
      ∧ getAt d' [Seg.key "a"] = some (JVal.num 5 0)
      ∧ ∀ q : List Seg, ¬ [Seg.key "a"] <+: q → ¬ q <+: [Seg.key "a"] →
          getAt d' q = getAt d q :=
  C4_patch_frame "\x7b\"a\":1,\"b\":2\x7d"
    (serializeJ (JVal.obj [("a", JVal.num 5 0), ("b", JVal.num 2 0)]))
    [Seg.key "a"] (JVal.num 5 0) (by rfl) (by rfl)

theorem C5_witness :
    normalizeNodeData (some [⟨none, RowVal.rint 7, "number"⟩])
        = rowValText (RowVal.rint 7)
    ∧ normalizeNodeData (some [⟨some "a", RowVal.rint 7, "number"⟩])
        = stringify2 (rowsObj [⟨some "a", RowVal.rint 7, "number"⟩]) :=
  ⟨C5_normalizeNodeData.2.2.1 ⟨none, RowVal.rint 7, "number"⟩ rfl,
   C5_normalizeNodeData.2.2.2.1 ⟨some "a", RowVal.rint 7, "number"⟩ [] (fun _ => rfl)⟩

theorem C7_witness :
    (handleSave (fun _ => [{ id := "n1", path := some [Seg.key "a"], text := [] }])
          { fileContents := "\x7b\"a\":\x7b\"x\":1,\"y\":2\x7d\x7d"
            fileHasChanges := false
            jsonStore := "\x7b\"a\":\x7b\"x\":1,\"y\":2\x7d\x7d"
            graphSource := "\x7b\"a\":\x7b\"x\":1,\"y\":2\x7d\x7d"
            graphNodes := []
            selectedNode := some { id := "n1", path := some [Seg.key "a"], text := [] }
            isEditing := true
            value := "\x7b\"x\":9\x7d"
            error := none
            pendingReselect := [] }).pendingReselect = [] ++ [(reselectDelayMs, "n1")]
      ∧ reselectDelayMs = 50 :=
  (C7_reselect (fun _ => [{ id := "n1", path := some [Seg.key "a"], text := [] }])
    { fileContents := "\x7b\"a\":\x7b\"x\":1,\"y\":2\x7d\x7d"
      fileHasChanges := false
      jsonStore := "\x7b\"a\":\x7b\"x\":1,\"y\":2\x7d\x7d"
      graphSource := "\x7b\"a\":\x7b\"x\":1,\"y\":2\x7d\x7d"
      graphNodes := []
      selectedNode := some { id := "n1", path := some [Seg.key "a"], text := [] }
      isEditing := true
      value := "\x7b\"x\":9\x7d"
      error := none
      pendingReselect := [] }
    (serializeJ (JVal.obj [("a", JVal.obj [("x", JVal.num 9 0), ("y", JVal.num 2 0)])]))
    "n1" (by rfl)).1

theorem C8_witness :
    getValueAtPath "\x7b\"a\":1\x7d" [Seg.key "b", Seg.key "c"] = some JVal.null :=
  (C8_getValueAtPath_total "\x7b\"a\":1\x7d" [Seg.key "b", Seg.key "c"]).2.2 rfl

theorem C9_witness :
    handleSave (fun _ => [])
        { fileContents := "\x7b\"a\":1\x7d"
          fileHasChanges := false
          jsonStore := "\x7b\"a\":1\x7d"
          graphSource := "\x7b\"a\":1\x7d"
          graphNodes := []
          selectedNode := some { id := "n1", path := some [Seg.key "a"], text := [] }
          isEditing := true
          value := "."
          error := none
          pendingReselect := [] }
      = { fileContents := "\x7b\"a\":1\x7d"
          fileHasChanges := false
          jsonStore := "\x7b\"a\":1\x7d"
          graphSource := "\x7b\"a\":1\x7d"
          graphNodes := []
          selectedNode := some { id := "n1", path := some [Seg.key "a"], text := [] }
          isEditing := true
          value := "."
          error := some "Unexpected token in JSON"
          pendingReselect := [] } :=
  (C9_error_atomicity (fun _ => [])
    { fileContents := "\x7b\"a\":1\x7d"
      fileHasChanges := false
      jsonStore := "\x7b\"a\":1\x7d"
      graphSource := "\x7b\"a\":1\x7d"
      graphNodes := []
      selectedNode := some { id := "n1", path := some [Seg.key "a"], text := [] }
      isEditing := true
      value := "."
      error := none
      pendingReselect := [] }
    "Unexpected token in JSON" (by rfl)).1

theorem C10_witness :
    handleSave (fun _ => [])
        { fileContents := "\x7b\x7d"
          fileHasChanges := false
          jsonStore := "\x7b\x7d"
          graphSource := "\x7b\x7d"
          graphNodes := []
          selectedNode := none
          isEditing := true
          value := "zz"
          error := none
          pendingReselect := [] }
      = { fileContents := "\x7b\x7d"
          fileHasChanges := false
          jsonStore := "\x7b\x7d"
          graphSource := "\x7b\x7d"
          graphNodes := []
          selectedNode := none
          isEditing := true
          value := "zz"
          error := none
          pendingReselect := [] } :=
  (C10_frame
    { fileContents := "\x7b\x7d"
      fileHasChanges := false
      jsonStore := "\x7b\x7d"
      graphSource := "\x7b\x7d"
      graphNodes := []
      selectedNode := none
      isEditing := true
      value := "zz"
      error := none
      pendingReselect := [] }
    (fun _ => []) "zz").2.2.2.2.1 rfl
